import Mathlib

/-! OBJ viewers, pixel grid and sphere

Shallow embedding of the three `loadOBJ` loaders and the flat normal of
`exp1_9.10/test/pyramid.cpp`, `cube.cpp` and `banana.cpp`, of the callbacks of
`exp2_9.17/exp2/pixel_grid.cpp` and of `generate_sphere` of `exp2_9.17/exp1/main.cpp`.

* A line of text is a `List Char`; a file is the list of the lines `std::getline` returns,
  or `none` when it cannot be opened.
* The global `std::vector`s of each program are the fields of its `Globals` structure.
* A local variable declared without initialiser (`Vec3 vertex;`, `Face face;`, `int v[4]`,
  `char buffer[128]`) holds an indeterminate value: each loader takes these values as an
  explicit `Locals` argument, one per loop iteration.
* `int` is `Int` reduced to 32 bits where the program computes (`toInt32`);
  a `float` read from text is the binary32 number nearest to the decimal read (`toFloat`),
  written as a decimal (`Flt`).
-/

namespace ObjViewer

/-! ## Scalars -/

/-- Largest value of the C++ type `int`. -/
def INT_MAX : Int := 2147483647

/-- Smallest value of the C++ type `int`. -/
def INT_MIN : Int := -2147483648

/-- Reduction of a mathematical integer to a 32-bit two's complement `int`: what is stored
when a computation or a conversion leaves the range of `int` (the language leaves that case
undefined; every statement below about stored indices stays inside the range). -/
def toInt32 (n : Int) : Int := (n + 2147483648) % 4294967296 - 2147483648

/-- The C++ expression `i - 1` (also `i--`) on an `int`. -/
def decr (i : Int) : Int := toInt32 (i - 1)

/-- A finite decimal number `mant * 10 ^ exp`: the number written in a text field, and also a
value of the C++ type `float` (every binary32 number is a finite decimal). -/
structure Flt where
  mant : Int
  exp : Int
deriving DecidableEq, Repr

instance : Zero Flt := ⟨⟨0, 0⟩⟩

/-- Number of binary digits of `n` (`fuel` bounds the recursion). -/
def bitLength : Nat → Nat → Nat
  | 0, _ => 0
  | fuel + 1, n => if n = 0 then 0 else 1 + bitLength fuel (n / 2)

/-- Numerator and denominator of `(n / d) / 2 ^ e`. -/
def scaleBy (n d : Nat) (e : Int) : Nat × Nat :=
  if 0 ≤ e then (n, d * 2 ^ e.toNat) else (n * 2 ^ (-e).toNat, d)

/-- The integer `floor (log2 (n / d))`, for positive `n` and `d`. -/
def floorLog2 (n d : Nat) : Int :=
  let c : Int := (bitLength n n : Int) - (bitLength d d : Int)
  if (scaleBy n d c).2 ≤ (scaleBy n d c).1 then c else c - 1

/-- The integer nearest to `num / den`, a tie going to the even one. -/
def roundHalfEven (num den : Nat) : Nat :=
  if den < 2 * (num % den) ∨ (2 * (num % den) = den ∧ (num / den) % 2 = 1) then num / den + 1
  else num / den

/-- The binary32 number nearest to `n / d`, as `(m, e)` with value `m * 2 ^ e`: 24 significant
bits, exponent at least `-149`. -/
def nearestBinary32 (n d : Nat) : Nat × Int :=
  if n = 0 then (0, 0)
  else
    let e : Int := max (floorLog2 n d - 23) (-149)
    (roundHalfEven (scaleBy n d e).1 (scaleBy n d e).2, e)

/-- Halve an even mantissa while the exponent is negative (`fuel` bounds the recursion). -/
def reduceDyadic : Nat → Nat → Int → Nat × Int
  | 0, m, e => (m, e)
  | fuel + 1, m, e =>
    if e < 0 ∧ m % 2 = 0 ∧ m ≠ 0 then reduceDyadic fuel (m / 2) (e + 1) else (m, e)

/-- The number `m * 2 ^ e`, negated when `neg`, as a decimal with the fewest fraction
digits. -/
def dyadicToFlt (neg : Bool) (m : Nat) (e : Int) : Flt :=
  if m = 0 then ⟨0, 0⟩
  else
    let r := reduceDyadic 32 m e
    let a : Nat := if 0 ≤ r.2 then r.1 * 2 ^ r.2.toNat else r.1 * 5 ^ (-r.2).toNat
    ⟨if neg then -(a : Int) else (a : Int), if 0 ≤ r.2 then 0 else r.2⟩

/-- The constant `FLT_MAX`, that is `(2 ^ 24 - 1) * 2 ^ 104`. -/
def FLT_MAX : Flt := ⟨340282346638528859811704183484516925440, 0⟩

/-- Conversion of the decimal `x` to `float`: the binary32 number nearest to it, `none` when
`x` is out of range (magnitude `2 ^ 128` or more once rounded). -/
def toFloat (x : Flt) : Option Flt :=
  let n : Nat := if 0 ≤ x.exp then x.mant.natAbs * 10 ^ x.exp.toNat else x.mant.natAbs
  let d : Nat := if 0 ≤ x.exp then 1 else 10 ^ (-x.exp).toNat
  let b := nearestBinary32 n d
  if 0 ≤ b.2 ∧ 2 ^ 128 ≤ b.1 * 2 ^ b.2.toNat then none
  else some (dyadicToFlt (decide (x.mant < 0)) b.1 b.2)

/-- The struct `Vec3` of the three viewers, over any scalar type. -/
structure Vec3 (α : Type) where
  x : α
  y : α
  z : α
deriving DecidableEq, Repr

/-- The struct `Vec2` of `banana.cpp`. -/
structure Vec2 (α : Type) where
  u : α
  v : α
deriving DecidableEq, Repr

/-! ## Text scanning: the library calls the loaders make -/

/-- The C function `isspace` in the default locale. -/
def isspace (c : Char) : Bool :=
  c = ' ' || c = '\t' || c = '\n' || c = '\x0b' || c = '\x0c' || c = '\r'

/-- Skip leading white space. -/
def skipws (cs : List Char) : List Char := cs.dropWhile isspace

/-- Value of a run of decimal digits, most significant first. -/
def digitsVal (ds : List Char) : Nat := ds.foldl (fun a c => 10 * a + (c.toNat - 48)) 0

/-- A non-empty run of decimal digits at the head of the input: its value and the rest. -/
def scanDigits (cs : List Char) : Option (Nat × List Char) :=
  match cs.takeWhile Char.isDigit with
  | [] => none
  | d :: ds => some (digitsVal (d :: ds), cs.dropWhile Char.isDigit)

/-- An optionally signed decimal integer at the head of the input (the subject sequence of
`%d` and of `operator>>(int&)`): its mathematical value and the rest. -/
def scanInteger (cs : List Char) : Option (Int × List Char) :=
  match cs with
  | '-' :: r => (scanDigits r).map fun p => (-(p.1 : Int), p.2)
  | '+' :: r => (scanDigits r).map fun p => ((p.1 : Int), p.2)
  | _ => (scanDigits cs).map fun p => ((p.1 : Int), p.2)

/-- A decimal floating-point literal at the head of the input: optional sign, digits with an
optional fraction, optional exponent. Returns the decimal number written, not yet rounded, and
the rest of the input. -/
def readFloat (cs : List Char) : Option (Flt × List Char) :=
  let sgn : Bool × List Char :=
    match cs with
    | '-' :: r => (true, r)
    | '+' :: r => (false, r)
    | _ => (false, cs)
  let ip := sgn.2.takeWhile Char.isDigit
  let c2 := sgn.2.dropWhile Char.isDigit
  let fr : List Char × List Char :=
    match c2 with
    | '.' :: r => (r.takeWhile Char.isDigit, r.dropWhile Char.isDigit)
    | _ => ([], c2)
  if ip = [] ∧ fr.1 = [] then none
  else
    let m : Int := if sgn.1 then -(digitsVal (ip ++ fr.1) : Int) else (digitsVal (ip ++ fr.1) : Int)
    match fr.2 with
    | 'e' :: r =>
      (scanInteger r).map fun p => (⟨m, p.1 - (fr.1.length : Int)⟩, p.2)
    | 'E' :: r =>
      (scanInteger r).map fun p => (⟨m, p.1 - (fr.1.length : Int)⟩, p.2)
    | _ => some (⟨m, -(fr.1.length : Int)⟩, fr.2)

/-- A `std::stringstream` being read: the characters not yet consumed and the fail bit. -/
structure IStream where
  rest : List Char
  fail : Bool
deriving DecidableEq, Repr

/-- The stream `std::stringstream ss(line)`. -/
def IStream.ofLine (line : List Char) : IStream := ⟨line, false⟩

/-- The call `ss >> s` for a `std::string`: skips white space, then takes the characters up to
the next white space. With nothing left to read the fail bit is set and `s` keeps its value. -/
def extractString (ss : IStream) (old : List Char) : IStream × List Char :=
  if ss.fail then (ss, old)
  else
    match skipws ss.rest with
    | [] => (⟨[], true⟩, old)
    | c :: cs =>
      (⟨(c :: cs).dropWhile (fun x => !isspace x), false⟩,
        (c :: cs).takeWhile (fun x => !isspace x))

/-- The call `ss >> i` for an `int`. A stream that has failed, or has only white space left,
leaves `i` untouched; a field that is no integer stores 0 and sets the fail bit; a value out of
range stores the nearest bound and sets the fail bit. -/
def extractInt (ss : IStream) (old : Int) : IStream × Int :=
  if ss.fail then (ss, old)
  else
    match skipws ss.rest with
    | [] => (⟨[], true⟩, old)
    | c :: cs =>
      match scanInteger (c :: cs) with
      | none => (⟨c :: cs, true⟩, 0)
      | some (n, r) =>
        if n > INT_MAX then (⟨r, true⟩, INT_MAX)
        else if n < INT_MIN then (⟨r, true⟩, INT_MIN)
        else (⟨r, false⟩, n)

/-- The call `ss >> f` for a `float`. A stream that has failed, or has only white space left,
leaves `f` untouched; a field that is no number stores 0 and sets the fail bit; a number out of
the range of `float` stores `FLT_MAX` or `-FLT_MAX` and sets the fail bit; any other number is
stored rounded to binary32. -/
def extractFloat (ss : IStream) (old : Flt) : IStream × Flt :=
  if ss.fail then (ss, old)
  else
    match skipws ss.rest with
    | [] => (⟨[], true⟩, old)
    | c :: cs =>
      match readFloat (c :: cs) with
      | none => (⟨c :: cs, true⟩, 0)
      | some (x, r) =>
        match toFloat x with
        | none => (⟨r, true⟩, if x.mant < 0 then ⟨-FLT_MAX.mant, FLT_MAX.exp⟩ else FLT_MAX)
        | some f => (⟨r, false⟩, f)

/-- The call `ss >> v.x >> v.y >> v.z` into a `Vec3` whose fields start as those of `old`. -/
def extractVec3 (ss : IStream) (old : Vec3 Flt) : Vec3 Flt :=
  let rx := extractFloat ss old.x
  let ry := extractFloat rx.1 old.y
  let rz := extractFloat ry.1 old.z
  ⟨rx.2, ry.2, rz.2⟩

/-- The call `ss >> t.u >> t.v` into a `Vec2` whose fields start as those of `old`. -/
def extractVec2 (ss : IStream) (old : Vec2 Flt) : Vec2 Flt :=
  let ru := extractFloat ss old.u
  let rv := extractFloat ru.1 old.v
  ⟨ru.2, rv.2⟩

/-- The characters of a C string: those before the first NUL. -/
def cstr (cs : List Char) : List Char := cs.takeWhile (fun c => c != '\x00')

/-- One directive of a `scanf` format: white space, an ordinary character, or `%d`. -/
inductive Directive where
  | white : Directive
  | lit : Char → Directive
  | int : Directive
deriving DecidableEq, Repr

/-- The directives of a format string that uses only white space, ordinary characters
and `%d`. -/
def parseFormat : List Char → List Directive
  | [] => []
  | '%' :: 'd' :: cs => Directive.int :: parseFormat cs
  | c :: cs => (if isspace c then Directive.white else Directive.lit c) :: parseFormat cs

/-- Run the directives over the input. Returns the values assigned, in order, and whether the
scan stopped on an input failure (the end of the input) rather than on a matching failure or
the end of the format. -/
def scanDirectives : List Directive → List Char → List Int × Bool
  | [], _ => ([], false)
  | Directive.white :: ds, cs => scanDirectives ds (skipws cs)
  | Directive.lit c :: ds, cs =>
    match cs with
    | [] => ([], true)
    | x :: xs => if x = c then scanDirectives ds xs else ([], false)
  | Directive.int :: ds, cs =>
    match skipws cs with
    | [] => ([], true)
    | x :: xs =>
      match scanInteger (x :: xs) with
      | none => ([], false)
      | some (n, r) => (toInt32 n :: (scanDirectives ds r).1, (scanDirectives ds r).2)

/-- The call `sscanf(buf, fmt, &a0, &a1, ...)`: the return value (the number of assignments,
or `EOF = -1` when the input ends before the first conversion) and the values assigned to
`a0, a1, ...` in order. -/
def sscanf (buf : List Char) (fmt : List Char) : Int × List Int :=
  let r := scanDirectives (parseFormat fmt) (cstr buf)
  (if r.1 = [] ∧ r.2 = true then -1 else (r.1.length : Int), r.1)

/-! ## pyramid.cpp -/

namespace pyramid

/-- The struct `Face` of `pyramid.cpp`: three vertex indices. -/
structure Face where
  v1 : Int
  v2 : Int
  v3 : Int
deriving DecidableEq, Repr

/-- The global vectors `vertices` and `faces` of `pyramid.cpp`. -/
structure Globals where
  vertices : List (Vec3 Flt)
  faces : List Face
deriving DecidableEq, Repr

/-- Indeterminate initial values of the locals `Vec3 vertex` and `Face face` of one iteration. -/
structure Locals where
  vertex : Vec3 Flt
  face : Face

/-- Body of the `while (std::getline(file, line))` loop of `loadOBJ`. -/
def lineStep (u : Locals) (g : Globals) (line : List Char) : Globals :=
  let p := extractString (IStream.ofLine line) []
  if p.2 = "v".toList then
    { g with vertices := g.vertices ++ [extractVec3 p.1 u.vertex] }
  else if p.2 = "f".toList then
    let r1 := extractInt p.1 u.face.v1
    let r2 := extractInt r1.1 u.face.v2
    let r3 := extractInt r2.1 u.face.v3
    { g with faces := g.faces ++ [⟨decr r1.2, decr r2.2, decr r3.2⟩] }
  else g

/-- The loop of `loadOBJ` from iteration `i` on; `env k` holds the indeterminate locals of
iteration `k`. -/
def loadLines (env : Nat → Locals) : Nat → List (List Char) → Globals → Globals
  | _, [], g => g
  | i, l :: ls, g => loadLines env (i + 1) ls (lineStep (env i) g l)

/-- The function `loadOBJ`, run at program start on empty globals. A file that cannot be opened
(`none`) ends the process (`exit(1)`): no result. -/
def loadOBJ (env : Nat → Locals) (file : Option (List (List Char))) : Option Globals :=
  file.map fun ls => loadLines env 0 ls ⟨[], []⟩

/-- The face normal computed in `display` from the three resolved positions of a face. -/
def displayNormal {α : Type} [Sub α] [Mul α] (v1 v2 v3 : Vec3 α) : Vec3 α :=
  let U : Vec3 α := ⟨v2.x - v1.x, v2.y - v1.y, v2.z - v1.z⟩
  let V : Vec3 α := ⟨v3.x - v1.x, v3.y - v1.y, v3.z - v1.z⟩
  ⟨U.y * V.z - U.z * V.y, U.z * V.x - U.x * V.z, U.x * V.y - U.y * V.x⟩

end pyramid

/-! ## cube.cpp -/

namespace cube

/-- The struct `Face` of `cube.cpp`: vertex indices and normal indices of three corners. -/
structure Face where
  v_indices : Int × Int × Int
  vn_indices : Int × Int × Int
deriving DecidableEq, Repr

/-- The global vectors `vertices`, `normals` and `faces` of `cube.cpp`. -/
structure Globals where
  vertices : List (Vec3 Flt)
  normals : List (Vec3 Flt)
  faces : List Face
deriving DecidableEq, Repr

/-- Indeterminate initial values of the locals of one iteration. `buffer` is what the storage
of `char buffer[128]` holds before `ss.read`, followed by the memory after it. -/
structure Locals where
  vertex : Vec3 Flt
  normal : Vec3 Flt
  face : Face
  buffer : List Char

/-- The call `ss.read(buffer, n)`: copies up to `n` unread characters over the start of the
buffer and appends no terminator; the bytes after them keep their value. -/
def read (ss : IStream) (buffer : List Char) (n : Nat) : List Char :=
  if ss.fail then buffer
  else ss.rest.take n ++ buffer.drop (ss.rest.take n).length

/-- Body of the `while (std::getline(file, line))` loop of `loadOBJ`. -/
def lineStep (u : Locals) (g : Globals) (line : List Char) : Globals :=
  let p := extractString (IStream.ofLine line) []
  if p.2 = "v".toList then
    { g with vertices := g.vertices ++ [extractVec3 p.1 u.vertex] }
  else if p.2 = "vn".toList then
    { g with normals := g.normals ++ [extractVec3 p.1 u.normal] }
  else if p.2 = "f".toList then
    let buffer := read p.1 u.buffer 128
    let a := (sscanf buffer "%d//%d %d//%d %d//%d".toList).2
    let face : Face :=
      ⟨(a.getD 0 u.face.v_indices.1, a.getD 2 u.face.v_indices.2.1,
          a.getD 4 u.face.v_indices.2.2),
        (a.getD 1 u.face.vn_indices.1, a.getD 3 u.face.vn_indices.2.1,
          a.getD 5 u.face.vn_indices.2.2)⟩
    { g with faces := g.faces ++
        [⟨(decr face.v_indices.1, decr face.v_indices.2.1, decr face.v_indices.2.2),
          (decr face.vn_indices.1, decr face.vn_indices.2.1, decr face.vn_indices.2.2)⟩] }
  else g

/-- The loop of `loadOBJ` from iteration `i` on; `env k` holds the indeterminate locals of
iteration `k`. -/
def loadLines (env : Nat → Locals) : Nat → List (List Char) → Globals → Globals
  | _, [], g => g
  | i, l :: ls, g => loadLines env (i + 1) ls (lineStep (env i) g l)

/-- The function `loadOBJ`, run at program start on empty globals. A file that cannot be opened
(`none`) ends the process (`exit(1)`): no result. -/
def loadOBJ (env : Nat → Locals) (file : Option (List (List Char))) : Option Globals :=
  file.map fun ls => loadLines env 0 ls ⟨[], [], []⟩

end cube

/-! ## banana.cpp -/

namespace banana

/-- The struct `Face` of `banana.cpp`: vertex, texture and normal indices of three corners. -/
structure Face where
  v_indices : Int × Int × Int
  vt_indices : Int × Int × Int
  vn_indices : Int × Int × Int
deriving DecidableEq, Repr

/-- The global vectors `vertices`, `texcoords`, `normals` and `faces` of `banana.cpp`. -/
structure Globals where
  vertices : List (Vec3 Flt)
  texcoords : List (Vec2 Flt)
  normals : List (Vec3 Flt)
  faces : List Face
deriving DecidableEq, Repr

/-- Indeterminate initial values of the locals of one iteration; `v i`, `vt i`, `vn i` are the
elements of the arrays `int v[4], vt[4], vn[4]`. -/
structure Locals where
  vertex : Vec3 Flt
  texcoord : Vec2 Flt
  normal : Vec3 Flt
  v : Nat → Int
  vt : Nat → Int
  vn : Nat → Int

/-- The format string of the `sscanf` call of `loadOBJ`. -/
def faceFormat : List Char := "f %d/%d/%d %d/%d/%d %d/%d/%d %d/%d/%d".toList

/-- The `Face` built from the corners `i0, i1, i2` of the arrays `v`, `vt`, `vn`. -/
def mkFace (v vt vn : Nat → Int) (i0 i1 i2 : Nat) : Face :=
  ⟨(decr (v i0), decr (v i1), decr (v i2)),
    (decr (vt i0), decr (vt i1), decr (vt i2)),
    (decr (vn i0), decr (vn i1), decr (vn i2))⟩

/-- Body of the `while (std::getline(file, line))` loop of `loadOBJ`. -/
def lineStep (u : Locals) (g : Globals) (line : List Char) : Globals :=
  let p := extractString (IStream.ofLine line) []
  if p.2 = "v".toList then
    { g with vertices := g.vertices ++ [extractVec3 p.1 u.vertex] }
  else if p.2 = "vt".toList then
    { g with texcoords := g.texcoords ++ [extractVec2 p.1 u.texcoord] }
  else if p.2 = "vn".toList then
    { g with normals := g.normals ++ [extractVec3 p.1 u.normal] }
  else if p.2 = "f".toList then
    let r := sscanf line faceFormat
    let v : Nat → Int := fun i => r.2.getD (3 * i) (u.v i)
    let vt : Nat → Int := fun i => r.2.getD (3 * i + 1) (u.vt i)
    let vn : Nat → Int := fun i => r.2.getD (3 * i + 2) (u.vn i)
    let num_verts := Int.tdiv r.1 3
    let faces1 := g.faces ++ [mkFace v vt vn 0 1 2]
    if num_verts = 4 then { g with faces := faces1 ++ [mkFace v vt vn 0 2 3] }
    else { g with faces := faces1 }
  else g

/-- The loop of `loadOBJ` from iteration `i` on; `env k` holds the indeterminate locals of
iteration `k`. -/
def loadLines (env : Nat → Locals) : Nat → List (List Char) → Globals → Globals
  | _, [], g => g
  | i, l :: ls, g => loadLines env (i + 1) ls (lineStep (env i) g l)

/-- The function `loadOBJ`, run at program start on empty globals. A file that cannot be opened
(`none`) ends the process (`exit(1)`): no result. -/
def loadOBJ (env : Nat → Locals) (file : Option (List (List Char))) : Option Globals :=
  file.map fun ls => loadLines env 0 ls ⟨[], [], [], []⟩

end banana

/-! ## Source text

How the integers and corners of a face line are written. -/

/-- Decimal digits of a natural number, most significant first (`fuel` bounds the recursion). -/
def natDigitsAux : Nat → Nat → List Char → List Char
  | 0, _, acc => acc
  | fuel + 1, n, acc =>
    if n < 10 then Nat.digitChar n :: acc
    else natDigitsAux fuel (n / 10) (Nat.digitChar (n % 10) :: acc)

/-- Decimal spelling of a natural number, without leading zeros. -/
def natDigits (n : Nat) : List Char := natDigitsAux (n + 1) n []

/-- Decimal spelling of an integer: a minus sign for a negative one, no leading zeros. -/
def intText (n : Int) : List Char :=
  if n < 0 then '-' :: natDigits n.natAbs else natDigits n.toNat

/-- An integer that is written on a face line and stored in an `int` after `- 1`: both it and
its predecessor are values of `int`. -/
def IsIndex (n : Int) : Prop := INT_MIN < n ∧ n ≤ INT_MAX

instance (n : Int) : Decidable (IsIndex n) := by unfold IsIndex; infer_instance

/-- One corner `p/t/n` of a banana face line: position, texcoord and normal index as written. -/
structure Corner where
  p : Int
  t : Int
  n : Int
deriving DecidableEq, Repr

/-- All three indices of the corner are `int` indices. -/
def Corner.Ok (c : Corner) : Prop := IsIndex c.p ∧ IsIndex c.t ∧ IsIndex c.n

instance (c : Corner) : Decidable c.Ok := by unfold Corner.Ok; infer_instance

/-- The text `p/t/n` of a corner. -/
def Corner.text (c : Corner) : List Char :=
  intText c.p ++ '/' :: (intText c.t ++ '/' :: intText c.n)

/-- The corners of a face line, each preceded by one blank. -/
def cornersText : List Corner → List Char
  | [] => []
  | c :: cs => ' ' :: (c.text ++ cornersText cs)

/-- The banana face line `f p0/t0/n0 p1/t1/n1 ...` with the given corners. -/
def bananaFaceLine (cs : List Corner) : List Char := 'f' :: cornersText cs

/-- The pyramid face line `f a b c`. -/
def pyramidFaceLine (a b c : Int) : List Char :=
  'f' :: ' ' :: (intText a ++ ' ' :: (intText b ++ ' ' :: intText c))

/-- The cube face line `f a//x b//y c//z`. -/
def cubeFaceLine (a x b y c z : Int) : List Char :=
  'f' :: ' ' :: (intText a ++ '/' :: '/' :: (intText x ++ ' ' :: (intText b ++ '/' :: '/' ::
    (intText y ++ ' ' :: (intText c ++ '/' :: '/' :: intText z)))))

/-- The input does not go on with a character satisfying `p`. -/
def StopsAt (p : Char → Bool) (r : List Char) : Prop := ∀ c ∈ r.head?, p c = false

/-- The integers of the corners in the order they are written: `p, t, n` of each corner. -/
def cornerVals : List Corner → List Int
  | [] => []
  | c :: cs => c.p :: c.t :: c.n :: cornerVals cs

/-- The directives of one corner ` %d/%d/%d` of the banana face format. -/
def cornerGroup : List Directive :=
  [Directive.white, Directive.int, Directive.lit '/', Directive.int, Directive.lit '/',
    Directive.int]

/-- The directives of `k` corners in a row. -/
def cornerGroups : Nat → List Directive
  | 0 => []
  | k + 1 => cornerGroup ++ cornerGroups k

/-- The first white-space delimited token of a line, as `ss >> s` reads it into an empty
string (empty when the line is blank). -/
def firstToken (line : List Char) : List Char := (extractString (IStream.ofLine line) []).2

/-- The triangle whose corners are the three given corners of a banana face line, with every
index converted from 1-based to 0-based. -/
def Corner.triangle (a b c : Corner) : banana.Face :=
  ⟨(a.p - 1, b.p - 1, c.p - 1), (a.t - 1, b.t - 1, c.t - 1), (a.n - 1, b.n - 1, c.n - 1)⟩

/-- Element `j` of an array of three `int`s. -/
def nth3 (t : Int × Int × Int) (j : Fin 3) : Int :=
  match j with
  | 0 => t.1
  | 1 => t.2.1
  | 2 => t.2.2

/-- The indices `(v, vt, vn)` a banana face stores for its corner `j`. -/
def banana.Face.corner (f : banana.Face) (j : Fin 3) : Int × Int × Int :=
  (nth3 f.v_indices j, nth3 f.vt_indices j, nth3 f.vn_indices j)

/-- The corner of the face line from which corner `j` of the `k`-th emitted triangle is taken:
corners 0, 1, 2 for the first triangle and 0, 2, 3 for the second. -/
def sourceCorner (k : Nat) (j : Fin 3) : Nat :=
  if k = 0 then j.val else if j.val = 0 then 0 else j.val + 1

/-- A line of a banana source: a face line with its corners, or any other line. -/
inductive SrcLine where
  | face : List Corner → SrcLine
  | other : List Char → SrcLine

/-- The text of a source line. -/
def SrcLine.text : SrcLine → List Char
  | SrcLine.face cs => bananaFaceLine cs
  | SrcLine.other l => l

/-- A well-formed source line: a face line has 3 or 4 corners `p/t/n` of `int` indices;
any other line does not start with the keyword `f`. -/
def SrcLine.WellFormed : SrcLine → Prop
  | SrcLine.face cs => (cs.length = 3 ∨ cs.length = 4) ∧ ∀ c ∈ cs, c.Ok
  | SrcLine.other l => firstToken l ≠ ['f']

/-- The line is a face line. -/
def SrcLine.isFace : SrcLine → Bool
  | SrcLine.face _ => true
  | SrcLine.other _ => false

/-- The line is a face line with four corners. -/
def SrcLine.isQuad : SrcLine → Bool
  | SrcLine.face cs => cs.length == 4
  | SrcLine.other _ => false

/-- Sample indeterminate locals of the banana loader. -/
def banana.sampleLocals : banana.Locals :=
  ⟨⟨0, 0, 0⟩, ⟨0, 0⟩, ⟨0, 0, 0⟩, fun _ => 77, fun _ => 88, fun _ => 99⟩

/-- Sample indeterminate locals of the pyramid loader. -/
def pyramid.sampleLocals : pyramid.Locals := ⟨⟨0, 0, 0⟩, ⟨55, 66, 77⟩⟩

/-- The part of a cube face line that `ss.read` copies into the buffer: what follows `f`. -/
def cubeFaceRest (a x b y c z : Int) : List Char := (cubeFaceLine a x b y c z).drop 1

/-- Locals of the cube loader whose buffer still holds the bytes that reading the face line
`f 1//2 2//2 13//2` left in it: the storage of `buffer` is the same in every iteration. -/
def cube.staleLocals : cube.Locals :=
  ⟨⟨0, 0, 0⟩, ⟨0, 0, 0⟩, ⟨(0, 0, 0), (0, 0, 0)⟩,
    cube.read ⟨" 1//2 2//2 13//2".toList, false⟩ (List.replicate 128 '\x00') 128⟩

/-- Locals of the cube loader whose buffer holds only NUL bytes. -/
def cube.zeroLocals : cube.Locals :=
  ⟨⟨0, 0, 0⟩, ⟨0, 0, 0⟩, ⟨(0, 0, 0), (0, 0, 0)⟩, List.replicate 128 '\x00'⟩

/-- The locals of a run of the cube loader on a file whose first line is the face line
`f 1//2 2//2 13//2`: a buffer of NUL bytes at the first line, afterwards the buffer as that
line left it. -/
def cube.staleEnv : Nat → cube.Locals := fun i =>
  if i = 0 then cube.zeroLocals else cube.staleLocals

/-- A vector of `Vec3` as a function on `Fin 3`. -/
def Vec3.toFun {α : Type} (v : Vec3 α) : Fin 3 → α := ![v.x, v.y, v.z]

/-- A blank line: nothing but white space. -/
def IsBlank (line : List Char) : Prop := ∀ c ∈ line, isspace c = true

/-- A comment line: its first token starts with `#`. -/
def IsComment (line : List Char) : Prop := (firstToken line).head? = some '#'

/-- A line a loader with the keywords `kw` skips: blank, comment, or first token no keyword. -/
def Skipped (kw : List (List Char)) (line : List Char) : Prop :=
  IsBlank line ∨ IsComment line ∨ firstToken line ∉ kw

/-- The keywords the pyramid loader recognises. -/
def pyramid.keywords : List (List Char) := ["v".toList, "f".toList]

/-- The keywords the cube loader recognises. -/
def cube.keywords : List (List Char) := ["v".toList, "vn".toList, "f".toList]

/-- The keywords the banana loader recognises. -/
def banana.keywords : List (List Char) := ["v".toList, "vt".toList, "vn".toList, "f".toList]

/-- A number as it is written in a field of a `v`, `vt` or `vn` line: a sign (none, `+` or
`-`), the digits before the point, the digits after the point when a point is written, and the
exponent when one is written. -/
structure NumText where
  sign : List Char
  ip : List Char
  frac : Option (List Char)
  expo : Option Int

/-- The digits after the point (none when no point is written). -/
def NumText.fracDigits (t : NumText) : List Char := t.frac.getD []

/-- The sign is none, `+` or `-`, the digits are digits and there is at least one. -/
def NumText.WellFormed (t : NumText) : Prop :=
  (t.sign = [] ∨ t.sign = ['+'] ∨ t.sign = ['-']) ∧ (∀ c ∈ t.ip, c.isDigit = true) ∧
    (∀ c ∈ t.fracDigits, c.isDigit = true) ∧ (t.ip ≠ [] ∨ t.fracDigits ≠ [])

instance (t : NumText) : Decidable t.WellFormed := by unfold NumText.WellFormed; infer_instance

/-- The point and the digits after it, as written. -/
def NumText.fracText (t : NumText) : List Char :=
  match t.frac with
  | none => []
  | some fp => '.' :: fp

/-- The exponent, as written. -/
def NumText.expoText (t : NumText) : List Char :=
  match t.expo with
  | none => []
  | some k => 'e' :: intText k

/-- The characters of the number. -/
def NumText.text (t : NumText) : List Char :=
  t.sign ++ (t.ip ++ (t.fracText ++ t.expoText))

/-- The decimal number the characters denote. -/
def NumText.value (t : NumText) : Flt :=
  ⟨if t.sign = ['-'] then -(digitsVal (t.ip ++ t.fracDigits) : Int)
      else (digitsVal (t.ip ++ t.fracDigits) : Int),
    t.expo.getD 0 - (t.fracDigits.length : Int)⟩

/-- A character that can continue a number: a digit, the point or an exponent mark. -/
def numChar (c : Char) : Bool := c.isDigit || c = '.' || c = 'e' || c = 'E'

/-- A non-empty run of white space, as between two fields of a line. -/
def IsSep (s : List Char) : Prop := s ≠ [] ∧ ∀ c ∈ s, isspace c = true

instance (s : List Char) : Decidable (IsSep s) := by unfold IsSep; infer_instance

/-- The line `kw x y z`: indentation `ws`, the keyword, the three numbers each after white
space, and whatever follows the third. -/
def vec3Line (ws kw s1 : List Char) (x : NumText) (s2 : List Char) (y : NumText)
    (s3 : List Char) (z : NumText) (tail : List Char) : List Char :=
  ws ++ (kw ++ (s1 ++ (x.text ++ (s2 ++ (y.text ++ (s3 ++ (z.text ++ tail)))))))

/-- The line `kw a b`: indentation `ws`, the keyword, the two numbers each after white space,
and whatever follows the second. -/
def vec2Line (ws kw s1 : List Char) (a : NumText) (s2 : List Char) (b : NumText)
    (tail : List Char) : List Char :=
  ws ++ (kw ++ (s1 ++ (a.text ++ (s2 ++ (b.text ++ tail)))))

/-- The layout of a well-formed attribute line: the indentation is white space, the fields are
separated by white space, and the last field is followed by the end of the line or by white
space and anything after it. -/
def LineLayout (ws s1 s2 s3 tail : List Char) : Prop :=
  (∀ c ∈ ws, isspace c = true) ∧ IsSep s1 ∧ IsSep s2 ∧ IsSep s3 ∧
    StopsAt (fun c => !isspace c) tail

/-- The number is well formed, in the range of `float`, and `f` is its `float` value. -/
def NumText.Reads (t : NumText) (f : Flt) : Prop := t.WellFormed ∧ toFloat t.value = some f

/-- The line starts with the keyword `v`. -/
def isPositionLine (line : List Char) : Bool := decide (firstToken line = ['v'])

/-! ## pixel_grid.cpp

The interactive pixel grid of `exp2_9.17/exp2/pixel_grid.cpp`. A `float` is a rational number
and every conversion to `float` and every `float` division is followed by the rounding `fl` to
binary32, a parameter of the model; `IsRounding` states what is used of it. The conversion to
`int` keeps the truncated value also when it is no `int` (the range check then rejects it). -/

namespace pixel_grid

/-- The constant `NUM_COLS`. -/
def NUM_COLS : Int := 20

/-- The constant `NUM_ROWS`. -/
def NUM_ROWS : Int := 20

/-- The value of `GLUT_LEFT_BUTTON` in the GLUT header. -/
def GLUT_LEFT_BUTTON : Int := 0

/-- The value of `GLUT_DOWN` in the GLUT header. -/
def GLUT_DOWN : Int := 0

/-- The globals `windowWidth`, `windowHeight` and `selectedCell` (as `(x, y)`). -/
structure Globals where
  windowWidth : Int
  windowHeight : Int
  selectedCell : Int × Int
deriving DecidableEq, Repr

/-- The globals as initialised at program start. -/
def initial : Globals := ⟨800, 800, (-1, -1)⟩

/-- What the statements use of rounding to nearest in binary32: an integer of magnitude at most
`2 ^ 24` is a `float`, and a number of magnitude between `1 / 64` and `2 ^ 24` is rounded with
a relative error of at most `2 ^ (-24)`. -/
def IsRounding (fl : ℚ → ℚ) : Prop :=
  (∀ n : Int, |n| ≤ 16777216 → fl (n : ℚ) = (n : ℚ)) ∧
    ∀ q : ℚ, 1 / 64 ≤ |q| → |q| ≤ 16777216 → |fl q - q| ≤ |q| / 16777216

/-- The conversion of a `float` to `int`: truncation toward zero. -/
def truncToInt (q : ℚ) : Int := if 0 ≤ q then ⌊q⌋ else ⌈q⌉

/-- The callback `reshape` (its effect on the globals). -/
def reshape (g : Globals) (w h : Int) : Globals :=
  { g with windowWidth := w, windowHeight := h }

/-- The local `cellWidth = (float)windowWidth / NUM_COLS` of `mouse`. -/
def cellWidth (fl : ℚ → ℚ) (g : Globals) : ℚ :=
  fl (fl (g.windowWidth : ℚ) / fl (NUM_COLS : ℚ))

/-- The local `cellHeight = (float)windowHeight / NUM_ROWS` of `mouse`. -/
def cellHeight (fl : ℚ → ℚ) (g : Globals) : ℚ :=
  fl (fl (g.windowHeight : ℚ) / fl (NUM_ROWS : ℚ))

/-- The local `int col = x / cellWidth` of `mouse`. -/
def mouseCol (fl : ℚ → ℚ) (g : Globals) (x : Int) : Int :=
  truncToInt (fl (fl (x : ℚ) / cellWidth fl g))

/-- The local `int row = (windowHeight - y) / cellHeight` of `mouse`. -/
def mouseRow (fl : ℚ → ℚ) (g : Globals) (y : Int) : Int :=
  truncToInt (fl (fl (toInt32 (g.windowHeight - y) : ℚ) / cellHeight fl g))

/-- The callback `mouse`. -/
def mouse (fl : ℚ → ℚ) (g : Globals) (button state x y : Int) : Globals :=
  if button = GLUT_LEFT_BUTTON ∧ state = GLUT_DOWN then
    if mouseCol fl g x ≥ 0 ∧ mouseCol fl g x < NUM_COLS ∧ mouseRow fl g y ≥ 0 ∧
        mouseRow fl g y < NUM_ROWS
    then { g with selectedCell := (mouseCol fl g x, mouseRow fl g y) }
    else g
  else g

/-- An event GLUT delivers to the program: a mouse button event or a reshape. -/
inductive Event where
  | mouse : Int → Int → Int → Int → Event
  | reshape : Int → Int → Event

/-- The callback run for an event. -/
def step (fl : ℚ → ℚ) (g : Globals) : Event → Globals
  | Event.mouse button state x y => mouse fl g button state x y
  | Event.reshape w h => reshape g w h

/-- The globals after a sequence of events, from program start. -/
def run (fl : ℚ → ℚ) (es : List Event) : Globals := es.foldl (step fl) initial

/-- A reshape event carries positive window dimensions. -/
def Event.Positive : Event → Prop
  | Event.mouse _ _ _ _ => True
  | Event.reshape w h => 0 < w ∧ 0 < h

/-- No cell is selected, or the selected cell is a cell of the grid. -/
def CellValid (c : Int × Int) : Prop :=
  c = (-1, -1) ∨ (0 ≤ c.1 ∧ c.1 < 20 ∧ 0 ≤ c.2 ∧ c.2 < 20)

/-- The range check of `mouse` on a computed cell. -/
def InGrid (col row : Int) : Prop := col ≥ 0 ∧ col < NUM_COLS ∧ row ≥ 0 ∧ row < NUM_ROWS

end pixel_grid

/-! ## main.cpp: the sphere

The function `generate_sphere` of `exp2_9.17/exp1/main.cpp`, over any type `F` of `float`
values with the operations the function uses: no statement below depends on their values.
The `int` expressions that index `vertices` are reduced to 32 bits; the loop counters are exact,
and the statements below are about sizes with `6 * (stacks + 1) * (sectors + 1) ≤ INT_MAX`, for
which no `int` of the function overflows. -/

namespace sphere

/-- The `float` operations `generate_sphere` uses. -/
structure FloatOps (F : Type) where
  ofInt : Int → F
  PI : F
  sub : F → F → F
  mul : F → F → F
  div : F → F → F
  cosf : F → F
  sinf : F → F

/-- The loop `for(int j = 0; j <= sectors; ++j)` of the first nest, from `j` on with `n`
iterations left: six floats per vertex. -/
def vertexRow {F : Type} (ops : FloatOps F) (xy z length_inv sector_step : F) :
    Nat → Int → List F
  | 0, _ => []
  | n + 1, j =>
    let sector_angle := ops.mul (ops.ofInt j) sector_step
    let x := ops.mul xy (ops.cosf sector_angle)
    let y := ops.mul xy (ops.sinf sector_angle)
    [x, y, z, ops.mul x length_inv, ops.mul y length_inv, ops.mul z length_inv] ++
      vertexRow ops xy z length_inv sector_step n (j + 1)

/-- The loop `for(int i = 0; i <= stacks; ++i)` of the first nest, from `i` on with `n`
iterations left. -/
def vertexGrid {F : Type} (ops : FloatOps F) (radius length_inv sector_step stack_step : F)
    (sectors : Int) : Nat → Int → List F
  | 0, _ => []
  | n + 1, i =>
    let stack_angle := ops.sub (ops.div ops.PI (ops.ofInt 2)) (ops.mul (ops.ofInt i) stack_step)
    let xy := ops.mul radius (ops.cosf stack_angle)
    let z := ops.mul radius (ops.sinf stack_angle)
    vertexRow ops xy z length_inv sector_step (sectors + 1).toNat 0 ++
      vertexGrid ops radius length_inv sector_step stack_step sectors n (i + 1)

/-- The intermediate array `vertices` once the first loop nest has run. -/
def vertices {F : Type} (ops : FloatOps F) (radius : F) (sectors nStacks : Int) : List F :=
  let length_inv := ops.div (ops.ofInt 1) radius
  let sector_step := ops.div (ops.mul (ops.ofInt 2) ops.PI) (ops.ofInt sectors)
  let stack_step := ops.div ops.PI (ops.ofInt nStacks)
  vertexGrid ops radius length_inv sector_step stack_step sectors (nStacks + 1).toNat 0

/-- The offsets `base*6+k`, `k = 0..5`, read by one loop
`for(int k=0; k<6; ++k) sphere_data.push_back(vertices[base*6+k])`. -/
def cornerOffsets (base : Int) : List Int :=
  (List.range 6).map fun (k : Nat) => toInt32 (toInt32 (base * 6) + (k : Int))

/-- The offsets read by the loop `for(int j = 0; j < sectors; ++j, ++k1, ++k2)` of stack `i`,
with `n` iterations left, in the order they are read. -/
def sectorOffsets (i nStacks : Int) : Nat → Int → Int → List Int
  | 0, _, _ => []
  | n + 1, k1, k2 =>
    (if i ≠ 0 then
        cornerOffsets k1 ++ cornerOffsets k2 ++ cornerOffsets (toInt32 (k1 + 1))
      else []) ++
    (if i ≠ toInt32 (nStacks - 1) then
        cornerOffsets (toInt32 (k1 + 1)) ++ cornerOffsets k2 ++ cornerOffsets (toInt32 (k2 + 1))
      else []) ++
    sectorOffsets i nStacks n (toInt32 (k1 + 1)) (toInt32 (k2 + 1))

/-- The offsets read in iteration `i` of the loop `for(int i = 0; i < stacks; ++i)`:
`k1 = i * (sectors + 1)` and `k2 = k1 + sectors + 1`, then the loop over the sectors. -/
def stackOffsets (sectors nStacks i : Int) : List Int :=
  sectorOffsets i nStacks sectors.toNat (toInt32 (i * toInt32 (sectors + 1)))
    (toInt32 (toInt32 (toInt32 (i * toInt32 (sectors + 1)) + sectors) + 1))

/-- All offsets of `vertices` the triangle-assembly loops read, in the order they are read. -/
def readOffsets (sectors nStacks : Int) : List Int :=
  ((List.range nStacks.toNat).map fun (i : Nat) =>
    stackOffsets sectors nStacks (i : Int)).flatten

/-- The reads `vertices[o]` at the given offsets, pushed in order; `none` when an offset is
outside the array. -/
def gather {F : Type} (vertices : List F) : List Int → Option (List F)
  | [] => some []
  | o :: os =>
    if 0 ≤ o then
      match vertices[o.toNat]? with
      | some v => (gather vertices os).map fun d => v :: d
      | none => none
    else none

/-- The function `generate_sphere` (its parameter `stacks` is `nStacks` here): the vector
`sphere_data` it returns, `none` when a read of `vertices` is out of bounds. -/
def generate_sphere {F : Type} (ops : FloatOps F) (radius : F) (sectors nStacks : Int) :
    Option (List F) :=
  gather (vertices ops radius sectors nStacks) (readOffsets sectors nStacks)

/-- The value `sphere_vertex_count = sphere_vertices.size() / 6` computed by `initSphere`. -/
def sphere_vertex_count {F : Type} (sphere_vertices : List F) : Int :=
  toInt32 ((sphere_vertices.length / 6 : Nat) : Int)

/-- Sample float operations on integers, to run the function. -/
def sampleOps : FloatOps Int :=
  ⟨fun n => n, 3, fun a b => a - b, fun a b => a * b, fun a b => a / b, fun a => a, fun a => a⟩

end sphere

/-! ## Lemmas on the text scanners -/

theorem digitChar_props (d : Nat) (h : d < 10) :
    (Nat.digitChar d).isDigit = true ∧ (Nat.digitChar d).toNat - 48 = d ∧
      isspace (Nat.digitChar d) = false ∧ Nat.digitChar d ≠ '-' ∧ Nat.digitChar d ≠ '+' ∧
      Nat.digitChar d ≠ '\x00' := by
  interval_cases d <;> decide

theorem natDigitsAux_eq (n : Nat) : ∀ (fuel : Nat) (acc : List Char), n < fuel →
    natDigitsAux fuel n acc = natDigits n ++ acc := by
  induction n using Nat.strong_induction_on with
  | _ n ih =>
    intro fuel acc hf
    obtain ⟨f, rfl⟩ : ∃ f, fuel = f + 1 := ⟨fuel - 1, by omega⟩
    by_cases h10 : n < 10
    · simp [natDigits, natDigitsAux, h10]
    · have hlt : n / 10 < n := by omega
      have h1 := ih (n / 10) hlt f (Nat.digitChar (n % 10) :: acc) (by omega)
      have h2 := ih (n / 10) hlt n [Nat.digitChar (n % 10)] (by omega)
      simp only [natDigits, natDigitsAux, h10, if_false] at h1 h2 ⊢
      rw [h1, h2]
      simp

theorem natDigits_lt (n : Nat) (h : n < 10) : natDigits n = [Nat.digitChar n] := by
  simp [natDigits, natDigitsAux, h]

theorem natDigits_ge (n : Nat) (h : 10 ≤ n) :
    natDigits n = natDigits (n / 10) ++ [Nat.digitChar (n % 10)] := by
  have h10 : ¬ n < 10 := by omega
  have := natDigitsAux_eq (n / 10) n [Nat.digitChar (n % 10)] (by omega)
  simp only [natDigits, natDigitsAux, h10, if_false] at this ⊢
  exact this

theorem natDigits_isDigit (n : Nat) : ∀ c ∈ natDigits n, c.isDigit = true := by
  induction n using Nat.strong_induction_on with
  | _ n ih =>
    by_cases h10 : n < 10
    · rw [natDigits_lt n h10]
      intro c hc
      simp only [List.mem_singleton] at hc
      rw [hc]
      exact (digitChar_props n h10).1
    · rw [natDigits_ge n (by omega)]
      intro c hc
      rcases List.mem_append.1 hc with hc | hc
      · exact ih (n / 10) (by omega) c hc
      · simp only [List.mem_singleton] at hc
        rw [hc]
        exact (digitChar_props (n % 10) (by omega)).1

theorem natDigits_ne_nil (n : Nat) : natDigits n ≠ [] := by
  by_cases h10 : n < 10
  · rw [natDigits_lt n h10]; simp
  · rw [natDigits_ge n (by omega)]; simp

theorem digitsVal_append (xs : List Char) (c : Char) :
    digitsVal (xs ++ [c]) = 10 * digitsVal xs + (c.toNat - 48) := by
  simp [digitsVal, List.foldl_append]

theorem digitsVal_natDigits (n : Nat) : digitsVal (natDigits n) = n := by
  induction n using Nat.strong_induction_on with
  | _ n ih =>
    by_cases h10 : n < 10
    · rw [natDigits_lt n h10]
      simp only [digitsVal, List.foldl_cons, List.foldl_nil]
      have := (digitChar_props n h10).2.1
      omega
    · rw [natDigits_ge n (by omega), digitsVal_append, ih (n / 10) (by omega)]
      have := (digitChar_props (n % 10) (by omega)).2.1
      omega

theorem takeWhile_append_stop (p : Char → Bool) (l r : List Char) (hl : ∀ c ∈ l, p c = true)
    (hr : StopsAt p r) : (l ++ r).takeWhile p = l ∧ (l ++ r).dropWhile p = r := by
  induction l with
  | nil =>
    cases r with
    | nil => simp
    | cons c cs =>
      have : p c = false := hr c (by simp)
      simp [List.takeWhile, List.dropWhile, this]
  | cons a l ih =>
    have ha : p a = true := hl a (by simp)
    have := ih (fun c hc => hl c (by simp [hc]))
    simp [List.takeWhile, List.dropWhile, ha, this.1, this.2]

theorem scanDigits_natDigits (n : Nat) (r : List Char) (hr : StopsAt Char.isDigit r) :
    scanDigits (natDigits n ++ r) = some (n, r) := by
  have h := takeWhile_append_stop Char.isDigit (natDigits n) r (natDigits_isDigit n) hr
  unfold scanDigits
  rw [h.1, h.2]
  cases hd : natDigits n with
  | nil => exact absurd hd (natDigits_ne_nil n)
  | cons d ds => simp [← hd, digitsVal_natDigits]

theorem natDigits_head (n : Nat) : ∃ d ds, natDigits n = d :: ds ∧ d.isDigit = true := by
  cases hd : natDigits n with
  | nil => exact absurd hd (natDigits_ne_nil n)
  | cons d ds => exact ⟨d, ds, rfl, natDigits_isDigit n d (by simp [hd])⟩

theorem isDigit_props (d : Char) (h : d.isDigit = true) :
    d ≠ '-' ∧ d ≠ '+' ∧ isspace d = false ∧ d ≠ '\x00' ∧ d ≠ '/' := by
  refine ⟨?_, ?_, ?_, ?_, ?_⟩
  all_goals first
    | (intro hc; rw [hc] at h; exact absurd h (by decide))
    | (cases hs : isspace d with
       | false => rfl
       | true =>
         simp only [isspace, Bool.or_eq_true, decide_eq_true_eq] at hs
         rcases hs with ((((hs | hs) | hs) | hs) | hs) | hs <;>
           (rw [hs] at h; exact absurd h (by decide)))

theorem scanInteger_intText (n : Int) (r : List Char) (hr : StopsAt Char.isDigit r) :
    scanInteger (intText n ++ r) = some (n, r) := by
  unfold intText
  by_cases hn : n < 0
  · simp only [hn, if_true, List.cons_append, scanInteger]
    rw [scanDigits_natDigits _ _ hr]
    simp only [Option.map_some', Option.some.injEq, Prod.mk.injEq, and_true]
    omega
  · simp only [hn, if_false]
    obtain ⟨d, ds, hd, hdig⟩ := natDigits_head n.toNat
    have hsc := scanDigits_natDigits n.toNat r hr
    rw [hd] at hsc ⊢
    have hp := isDigit_props d hdig
    simp only [List.cons_append] at hsc ⊢
    unfold scanInteger
    split
    · rename_i heq; simp only [List.cons.injEq] at heq; exact absurd heq.1 hp.1
    · rename_i heq; simp only [List.cons.injEq] at heq; exact absurd heq.1 hp.2.1
    · rw [hsc]
      simp only [Option.map_some', Option.some.injEq, Prod.mk.injEq, and_true]
      omega

theorem toInt32_of_int (n : Int) (h1 : INT_MIN ≤ n) (h2 : n ≤ INT_MAX) : toInt32 n = n := by
  unfold toInt32
  unfold INT_MIN at h1
  unfold INT_MAX at h2
  omega

theorem toInt32_of_index (n : Int) (h : IsIndex n) : toInt32 n = n := by
  unfold IsIndex at h
  exact toInt32_of_int n (le_of_lt h.1) h.2

theorem decr_of_index (n : Int) (h : IsIndex n) : decr n = n - 1 := by
  unfold IsIndex INT_MIN INT_MAX at h
  unfold decr toInt32
  omega

/-- The text of an integer starts with a minus sign or a digit. -/
theorem intText_head (n : Int) :
    ∃ d ds, intText n = d :: ds ∧ (d = '-' ∨ d.isDigit = true) := by
  unfold intText
  by_cases hn : n < 0
  · exact ⟨'-', natDigits n.natAbs, by simp [hn], Or.inl rfl⟩
  · obtain ⟨d, ds, hd, hdig⟩ := natDigits_head n.toNat
    exact ⟨d, ds, by simp [hn, hd], Or.inr hdig⟩

theorem intText_mem (n : Int) : ∀ c ∈ intText n, c = '-' ∨ c.isDigit = true := by
  intro c hc
  unfold intText at hc
  by_cases hn : n < 0
  · simp only [hn, if_true, List.mem_cons] at hc
    rcases hc with hc | hc
    · exact Or.inl hc
    · exact Or.inr (natDigits_isDigit _ c hc)
  · simp only [hn, if_false] at hc
    exact Or.inr (natDigits_isDigit _ c hc)

theorem skipws_cons_of_not_space (c : Char) (cs : List Char) (h : isspace c = false) :
    skipws (c :: cs) = c :: cs := by
  simp [skipws, List.dropWhile, h]

theorem skipws_cons_of_space (c : Char) (cs : List Char) (h : isspace c = true) :
    skipws (c :: cs) = skipws cs := by
  simp [skipws, List.dropWhile, h]

theorem skipws_intText (n : Int) (r : List Char) : skipws (intText n ++ r) = intText n ++ r := by
  obtain ⟨d, ds, hd, h⟩ := intText_head n
  rw [hd, List.cons_append]
  apply skipws_cons_of_not_space
  rcases h with h | h
  · rw [h]; decide
  · exact (isDigit_props d h).2.2.1

/-- Scanning `%d` on the text of an integer followed by a non-digit reads that integer. -/
theorem scanDirectives_int (n : Int) (ds : List Directive) (r : List Char)
    (hr : StopsAt Char.isDigit r) :
    scanDirectives (Directive.int :: ds) (intText n ++ r) =
      (toInt32 n :: (scanDirectives ds r).1, (scanDirectives ds r).2) := by
  have hs := skipws_intText n r
  have hi := scanInteger_intText n r hr
  obtain ⟨d, t, hd, -⟩ := intText_head n
  rw [hd, List.cons_append] at hs hi ⊢
  rw [scanDirectives, hs]
  simp only [hi]

theorem scanDirectives_lit (c : Char) (ds : List Directive) (r : List Char) :
    scanDirectives (Directive.lit c :: ds) (c :: r) = scanDirectives ds r := by
  simp [scanDirectives]

theorem stopsAt_cons (p : Char → Bool) (c : Char) (r : List Char) (h : p c = false) :
    StopsAt p (c :: r) := by
  intro x hx
  simp only [List.head?_cons, Option.mem_def, Option.some.injEq] at hx
  rw [← hx]; exact h

theorem stopsAt_nil (p : Char → Bool) : StopsAt p [] := by
  intro x hx
  simp at hx

/-! ## The banana face line under `sscanf` -/

theorem parseFormat_faceFormat :
    parseFormat banana.faceFormat = Directive.lit 'f' :: cornerGroups 4 := by
  decide

theorem stopsAt_cornersText (cs : List Corner) : StopsAt Char.isDigit (cornersText cs) := by
  cases cs with
  | nil => exact stopsAt_nil _
  | cons c cs => exact stopsAt_cons _ _ _ (by decide)

theorem scanDirectives_corner (c : Corner) (hc : c.Ok) (ds : List Directive) (r : List Char)
    (hr : StopsAt Char.isDigit r) :
    scanDirectives (cornerGroup ++ ds) (' ' :: (c.text ++ r)) =
      (c.p :: c.t :: c.n :: (scanDirectives ds r).1, (scanDirectives ds r).2) := by
  obtain ⟨hp, ht, hn⟩ := hc
  have hslash : ∀ t : List Char, StopsAt Char.isDigit ('/' :: t) :=
    fun t => stopsAt_cons _ _ _ (by decide)
  simp only [cornerGroup, List.cons_append, List.nil_append, Corner.text, List.append_assoc]
  rw [scanDirectives, skipws_cons_of_space _ _ (by decide), skipws_intText,
    scanDirectives_int _ _ _ (hslash _), scanDirectives_lit,
    scanDirectives_int _ _ _ (hslash _), scanDirectives_lit,
    scanDirectives_int _ _ _ hr, toInt32_of_index _ hp, toInt32_of_index _ ht,
    toInt32_of_index _ hn]

theorem scanDirectives_cornerGroups (k : Nat) : ∀ (cs : List Corner), (∀ c ∈ cs, c.Ok) →
    scanDirectives (cornerGroups k) (cornersText cs) =
      (cornerVals (cs.take k), decide (cs.length < k)) := by
  induction k with
  | zero => intro cs _; simp [cornerGroups, scanDirectives, cornerVals]
  | succ k ih =>
    intro cs hcs
    cases cs with
    | nil => simp [cornerGroups, cornerGroup, cornersText, scanDirectives, skipws, cornerVals]
    | cons c cs =>
      have hr := ih cs (fun x hx => hcs x (by simp [hx]))
      rw [cornerGroups, cornersText,
        scanDirectives_corner c (hcs c (by simp)) _ _ (stopsAt_cornersText cs), hr]
      simp [cornerVals]

theorem cornerVals_length (cs : List Corner) : (cornerVals cs).length = 3 * cs.length := by
  induction cs with
  | nil => rfl
  | cons c cs ih => simp only [cornerVals, List.length_cons, ih]; omega

theorem cstr_of_no_nul (l : List Char) (h : ∀ c ∈ l, c ≠ '\x00') : cstr l = l := by
  unfold cstr
  rw [List.takeWhile_eq_self_iff]
  intro c hc
  simpa using h c hc

theorem intText_no_nul (n : Int) : ∀ c ∈ intText n, c ≠ '\x00' := by
  intro c hc
  rcases intText_mem n c hc with h | h
  · rw [h]; decide
  · exact (isDigit_props c h).2.2.2.1

theorem cornersText_no_nul (cs : List Corner) : ∀ c ∈ cornersText cs, c ≠ '\x00' := by
  induction cs with
  | nil => intro c hc; simp [cornersText] at hc
  | cons a cs ih =>
    intro c hc
    simp only [cornersText, Corner.text, List.mem_cons, List.mem_append] at hc
    rcases hc with hc | (hc | hc | hc | hc | hc) | hc
    · rw [hc]; decide
    · exact intText_no_nul _ c hc
    · rw [hc]; decide
    · exact intText_no_nul _ c hc
    · rw [hc]; decide
    · exact intText_no_nul _ c hc
    · exact ih c hc

/-- What `sscanf` returns and assigns on a banana face line: the integers of the first four
corners. -/
theorem sscanf_bananaFaceLine (cs : List Corner) (hcs : ∀ c ∈ cs, c.Ok) :
    sscanf (bananaFaceLine cs) banana.faceFormat =
      (if cs = [] then -1 else ((3 * min cs.length 4 : Nat) : Int), cornerVals (cs.take 4)) := by
  have hnul : cstr (bananaFaceLine cs) = bananaFaceLine cs := by
    apply cstr_of_no_nul
    intro c hc
    simp only [bananaFaceLine, List.mem_cons] at hc
    rcases hc with hc | hc
    · rw [hc]; decide
    · exact cornersText_no_nul cs c hc
  unfold sscanf
  rw [hnul, parseFormat_faceFormat, bananaFaceLine, scanDirectives_lit,
    scanDirectives_cornerGroups 4 cs hcs]
  cases cs with
  | nil => simp [cornerVals]
  | cons c cs =>
    simp only [List.take_succ_cons, cornerVals, cornerVals_length, List.length_cons,
      List.length_take]
    simp
    omega

theorem firstToken_bananaFaceLine (cs : List Corner) :
    firstToken (bananaFaceLine cs) = ['f'] := by
  cases cs with
  | nil => decide
  | cons c cs =>
    simp [firstToken, extractString, IStream.ofLine, bananaFaceLine, cornersText, skipws,
      List.dropWhile, List.takeWhile, isspace]

theorem numVerts_eq_four (cs : List Corner) :
    Int.tdiv (if cs = [] then -1 else ((3 * min cs.length 4 : Nat) : Int)) 3 = 4 ↔
      4 ≤ cs.length := by
  cases cs with
  | nil => simp; decide
  | cons c cs =>
    simp only [reduceCtorEq, if_false, List.length_cons]
    rcases Nat.lt_or_ge cs.length 3 with h | h
    · have hm : min (cs.length + 1) 4 = cs.length + 1 := by omega
      rw [hm]
      generalize cs.length = m at h
      interval_cases m <;> decide
    · have hm : min (cs.length + 1) 4 = 4 := by omega
      rw [hm]
      constructor
      · intro _; omega
      · intro _; decide

/-! ## Indented lines -/

theorem skipws_blank_append (ws l : List Char) (h : ∀ c ∈ ws, isspace c = true) :
    skipws (ws ++ l) = skipws l := by
  induction ws with
  | nil => rfl
  | cons a ws ih =>
    rw [List.cons_append, skipws_cons_of_space _ _ (h a (by simp))]
    exact ih (fun c hc => h c (by simp [hc]))

/-- The call `ss >> prefix` skips the indentation of a line. -/
theorem extractString_indent (ws l old : List Char) (h : IsBlank ws) :
    extractString (IStream.ofLine (ws ++ l)) old = extractString (IStream.ofLine l) old := by
  unfold extractString
  simp only [IStream.ofLine, skipws_blank_append ws l h, Bool.false_eq_true, if_false]

/-- The pyramid loader reads an indented line as it reads the line without the indentation. -/
theorem pyramid_lineStep_indent (u : pyramid.Locals) (g : pyramid.Globals) (ws l : List Char)
    (h : IsBlank ws) : pyramid.lineStep u g (ws ++ l) = pyramid.lineStep u g l := by
  unfold pyramid.lineStep
  rw [extractString_indent ws l [] h]

/-- The cube loader reads an indented line as it reads the line without the indentation. -/
theorem cube_lineStep_indent (u : cube.Locals) (g : cube.Globals) (ws l : List Char)
    (h : IsBlank ws) : cube.lineStep u g (ws ++ l) = cube.lineStep u g l := by
  unfold cube.lineStep
  rw [extractString_indent ws l [] h]

/-- The `sscanf` call of the banana loader on a line that starts with white space: the
literal `f` of the format does not match, nothing is assigned and the call returns 0. -/
theorem sscanf_faceFormat_indented (w : Char) (l : List Char) (hw : isspace w = true) :
    sscanf (w :: l) banana.faceFormat = (0, []) := by
  have hnul : (w != '\x00') = true := by
    cases h0 : (w != '\x00') with
    | true => rfl
    | false =>
      have : w = '\x00' := by simpa using h0
      rw [this] at hw
      exact absurd hw (by decide)
  have hf : w ≠ 'f' := by
    intro h
    rw [h] at hw
    exact absurd hw (by decide)
  unfold sscanf
  rw [parseFormat_faceFormat]
  simp [cstr, List.takeWhile, hnul, scanDirectives, hf]

/-- The banana loader on a line that starts with white space and whose first token is `f`:
the locals `v`, `vt`, `vn` are not assigned, and one triangle holding what they held, minus 1,
is appended, whatever is written on the line. -/
theorem banana_lineStep_indented (u : banana.Locals) (g : banana.Globals) (w : Char)
    (l : List Char) (hw : isspace w = true) (hft : firstToken (w :: l) = ['f']) :
    banana.lineStep u g (w :: l) =
      { g with faces := g.faces ++ [banana.mkFace u.v u.vt u.vn 0 1 2] } := by
  have hft' : (extractString (IStream.ofLine (w :: l)) []).2 = ['f'] := hft
  have hv : "v".toList = ['v'] := rfl
  have hvt : "vt".toList = ['v', 't'] := rfl
  have hvn : "vn".toList = ['v', 'n'] := rfl
  have hf : "f".toList = ['f'] := rfl
  have h1 : (['f'] : List Char) ≠ ['v'] := by decide
  have h2 : (['f'] : List Char) ≠ ['v', 't'] := by decide
  have h3 : (['f'] : List Char) ≠ ['v', 'n'] := by decide
  have h4 : ¬ Int.tdiv 0 3 = 4 := by decide
  unfold banana.lineStep
  simp only [hft', hv, hvt, hvn, hf, h1, h2, h3, if_false, if_true,
    sscanf_faceFormat_indented w l hw, h4, List.getD_nil]

theorem firstToken_indented_bananaFaceLine (cs : List Corner) :
    firstToken (' ' :: bananaFaceLine cs) = ['f'] := by
  have h := extractString_indent [' '] (bananaFaceLine cs) []
    (fun c hc => by rw [List.mem_singleton.mp hc]; decide)
  unfold firstToken
  rw [List.singleton_append] at h
  rw [h]
  exact firstToken_bananaFaceLine cs

/-- The step of the banana loader on a face line, in terms of the integers `sscanf` assigns. -/
theorem banana_lineStep_faceLine (u : banana.Locals) (g : banana.Globals) (cs : List Corner)
    (hcs : ∀ c ∈ cs, c.Ok) :
    banana.lineStep u g (bananaFaceLine cs) =
      { g with faces := g.faces ++
          (if 4 ≤ cs.length then
            [banana.mkFace (fun i => (cornerVals (cs.take 4)).getD (3 * i) (u.v i))
                (fun i => (cornerVals (cs.take 4)).getD (3 * i + 1) (u.vt i))
                (fun i => (cornerVals (cs.take 4)).getD (3 * i + 2) (u.vn i)) 0 1 2,
              banana.mkFace (fun i => (cornerVals (cs.take 4)).getD (3 * i) (u.v i))
                (fun i => (cornerVals (cs.take 4)).getD (3 * i + 1) (u.vt i))
                (fun i => (cornerVals (cs.take 4)).getD (3 * i + 2) (u.vn i)) 0 2 3]
          else
            [banana.mkFace (fun i => (cornerVals (cs.take 4)).getD (3 * i) (u.v i))
                (fun i => (cornerVals (cs.take 4)).getD (3 * i + 1) (u.vt i))
                (fun i => (cornerVals (cs.take 4)).getD (3 * i + 2) (u.vn i)) 0 1 2]) } := by
  have hft : (extractString (IStream.ofLine (bananaFaceLine cs)) []).2 = ['f'] :=
    firstToken_bananaFaceLine cs
  have hv : "v".toList = ['v'] := rfl
  have hvt : "vt".toList = ['v', 't'] := rfl
  have hvn : "vn".toList = ['v', 'n'] := rfl
  have hf : "f".toList = ['f'] := rfl
  have h1 : (['f'] : List Char) ≠ ['v'] := by decide
  have h2 : (['f'] : List Char) ≠ ['v', 't'] := by decide
  have h3 : (['f'] : List Char) ≠ ['v', 'n'] := by decide
  unfold banana.lineStep
  simp only [hft, hv, hvt, hvn, hf, h1, h2, h3, if_false, if_true,
    sscanf_bananaFaceLine cs hcs, numVerts_eq_four]
  by_cases h4 : 4 ≤ cs.length
  · simp [h4]
  · simp [h4]

theorem triangle_of_decr (a b c : Corner) (ha : a.Ok) (hb : b.Ok)
    (hc : c.Ok) :
    (⟨(decr a.p, decr b.p, decr c.p), (decr a.t, decr b.t, decr c.t),
      (decr a.n, decr b.n, decr c.n)⟩ : banana.Face) = Corner.triangle a b c := by
  simp only [Corner.triangle, decr_of_index _ ha.1, decr_of_index _ ha.2.1,
    decr_of_index _ ha.2.2, decr_of_index _ hb.1, decr_of_index _ hb.2.1,
    decr_of_index _ hb.2.2, decr_of_index _ hc.1, decr_of_index _ hc.2.1,
    decr_of_index _ hc.2.2]

theorem banana_lineStep_quad (u : banana.Locals) (g : banana.Globals) (c0 c1 c2 c3 : Corner)
    (rest : List Corner) (h : ∀ c ∈ c0 :: c1 :: c2 :: c3 :: rest, c.Ok) :
    banana.lineStep u g (bananaFaceLine (c0 :: c1 :: c2 :: c3 :: rest)) =
      { g with faces := g.faces ++ [Corner.triangle c0 c1 c2, Corner.triangle c0 c2 c3] } := by
  have h0 : c0.Ok := h c0 (by simp)
  have h1 : c1.Ok := h c1 (by simp)
  have h2 : c2.Ok := h c2 (by simp)
  have h3 : c3.Ok := h c3 (by simp)
  rw [banana_lineStep_faceLine u g _ h]
  simp [cornerVals, banana.mkFace, triangle_of_decr _ _ _ h0 h1 h2,
    triangle_of_decr _ _ _ h0 h2 h3]

theorem banana_lineStep_tri (u : banana.Locals) (g : banana.Globals) (c0 c1 c2 : Corner)
    (h : ∀ c ∈ [c0, c1, c2], c.Ok) :
    banana.lineStep u g (bananaFaceLine [c0, c1, c2]) =
      { g with faces := g.faces ++ [Corner.triangle c0 c1 c2] } := by
  have h0 : c0.Ok := h c0 (by simp)
  have h1 : c1.Ok := h c1 (by simp)
  have h2 : c2.Ok := h c2 (by simp)
  rw [banana_lineStep_faceLine u g _ h]
  simp [cornerVals, banana.mkFace, triangle_of_decr _ _ _ h0 h1 h2]

/-- In the banana loader a face line with exactly four corners `p/t/n` that starts with `f` in
its first column appends exactly two triangles, in this order: the first from corners (0,1,2),
the second from corners (0,2,3), the same selection being applied to the position, texcoord
and normal indices. -/
theorem banana_quad_two_triangles (u : banana.Locals) (g : banana.Globals)
    (c0 c1 c2 c3 : Corner) (h0 : c0.Ok) (h1 : c1.Ok) (h2 : c2.Ok) (h3 : c3.Ok) :
    banana.lineStep u g (bananaFaceLine [c0, c1, c2, c3]) =
      { g with faces := g.faces ++ [Corner.triangle c0 c1 c2, Corner.triangle c0 c2 c3] } := by
  apply banana_lineStep_quad
  intro c hc
  simp only [List.mem_cons, List.mem_singleton, List.not_mem_nil, or_false] at hc
  rcases hc with rfl | rfl | rfl | rfl <;> assumption

theorem banana_quad_two_triangles_witness :
    (Corner.Ok ⟨1, 5, 9⟩ ∧ Corner.Ok ⟨2, 6, 10⟩ ∧ Corner.Ok ⟨3, 7, 11⟩ ∧ Corner.Ok ⟨4, 8, 12⟩) ∧
      bananaFaceLine [⟨1, 5, 9⟩, ⟨2, 6, 10⟩, ⟨3, 7, 11⟩, ⟨4, 8, 12⟩] =
        "f 1/5/9 2/6/10 3/7/11 4/8/12".toList ∧
      banana.lineStep banana.sampleLocals ⟨[], [], [], []⟩
          (bananaFaceLine [⟨1, 5, 9⟩, ⟨2, 6, 10⟩, ⟨3, 7, 11⟩, ⟨4, 8, 12⟩]) =
        ⟨[], [], [], [⟨(0, 1, 2), (4, 5, 6), (8, 9, 10)⟩, ⟨(0, 2, 3), (4, 6, 7), (8, 10, 11)⟩]⟩ :=
  ⟨by decide, by decide,
    banana_quad_two_triangles banana.sampleLocals ⟨[], [], [], []⟩ ⟨1, 5, 9⟩ ⟨2, 6, 10⟩
      ⟨3, 7, 11⟩ ⟨4, 8, 12⟩ (by decide) (by decide) (by decide) (by decide)⟩

/-- In the banana loader, for a face line with 3 or 4 corners `p/t/n` that starts with `f` in
its first column, every corner of every emitted triangle stores indices `(v, vt, vn)` with
`v + 1 = p`, `vt + 1 = t` and `vn + 1 = n` of the corner of the line it was taken from. -/
theorem banana_index_roundtrip (u : banana.Locals) (g : banana.Globals) (cs : List Corner)
    (hlen : cs.length = 3 ∨ cs.length = 4) (hcs : ∀ c ∈ cs, c.Ok) :
    ∃ new : List banana.Face,
      (banana.lineStep u g (bananaFaceLine cs)).faces = g.faces ++ new ∧
      new.length = cs.length - 2 ∧
      ∀ (k : Nat) (f : banana.Face), new[k]? = some f → ∀ j : Fin 3,
        ∃ c : Corner, cs[sourceCorner k j]? = some c ∧
          (f.corner j).1 + 1 = c.p ∧ (f.corner j).2.1 + 1 = c.t ∧ (f.corner j).2.2 + 1 = c.n := by
  rcases hlen with hlen | hlen
  · obtain ⟨c0, c1, c2, rfl⟩ := List.length_eq_three.1 hlen
    refine ⟨[Corner.triangle c0 c1 c2], ?_, rfl, ?_⟩
    · rw [banana_lineStep_tri u g c0 c1 c2 hcs]
    · intro k f hk j
      cases k with
      | zero =>
        simp only [List.getElem?_cons_zero, Option.some.injEq] at hk
        subst hk
        fin_cases j <;>
          simp [sourceCorner, banana.Face.corner, nth3, Corner.triangle]
      | succ k => simp at hk
  · obtain ⟨c0, c1, c2, c3, rfl⟩ : ∃ c0 c1 c2 c3, cs = [c0, c1, c2, c3] := by
      match cs, hlen with
      | [c0, c1, c2, c3], _ => exact ⟨c0, c1, c2, c3, rfl⟩
    refine ⟨[Corner.triangle c0 c1 c2, Corner.triangle c0 c2 c3], ?_, rfl, ?_⟩
    · rw [banana_lineStep_quad u g c0 c1 c2 c3 [] hcs]
    · intro k f hk j
      match k, hk with
      | 0, hk =>
        simp only [List.getElem?_cons_zero, Option.some.injEq] at hk
        subst hk
        fin_cases j <;>
          simp [sourceCorner, banana.Face.corner, nth3, Corner.triangle]
      | 1, hk =>
        simp only [List.getElem?_cons_succ, List.getElem?_cons_zero, Option.some.injEq] at hk
        subst hk
        fin_cases j <;>
          simp [sourceCorner, banana.Face.corner, nth3, Corner.triangle]
      | k + 2, hk => simp at hk

theorem banana_index_roundtrip_witness :
    ∃ new : List banana.Face,
      (banana.lineStep banana.sampleLocals ⟨[], [], [], []⟩
        (bananaFaceLine [⟨1, 5, 9⟩, ⟨2, 6, 10⟩, ⟨3, 7, 11⟩])).faces = [] ++ new ∧
      new.length = [(⟨1, 5, 9⟩ : Corner), ⟨2, 6, 10⟩, ⟨3, 7, 11⟩].length - 2 ∧
      ∀ (k : Nat) (f : banana.Face), new[k]? = some f → ∀ j : Fin 3,
        ∃ c : Corner, [(⟨1, 5, 9⟩ : Corner), ⟨2, 6, 10⟩, ⟨3, 7, 11⟩][sourceCorner k j]? = some c ∧
          (f.corner j).1 + 1 = c.p ∧ (f.corner j).2.1 + 1 = c.t ∧ (f.corner j).2.2 + 1 = c.n :=
  banana_index_roundtrip banana.sampleLocals ⟨[], [], [], []⟩
    [⟨1, 5, 9⟩, ⟨2, 6, 10⟩, ⟨3, 7, 11⟩] (Or.inl rfl) (by decide)

theorem banana_lineStep_faces_other (u : banana.Locals) (g : banana.Globals) (l : List Char)
    (h : firstToken l ≠ ['f']) : (banana.lineStep u g l).faces = g.faces := by
  have hf : "f".toList = ['f'] := rfl
  have h' : ¬ (extractString (IStream.ofLine l) []).2 = ['f'] := h
  unfold banana.lineStep
  simp only [hf, h', if_false]
  split
  · rfl
  · split
    · rfl
    · split <;> rfl

theorem banana_loadLines_faces_length (env : Nat → banana.Locals) (src : List SrcLine)
    (hwf : ∀ l ∈ src, l.WellFormed) : ∀ (i : Nat) (g : banana.Globals),
    (banana.loadLines env i (src.map SrcLine.text) g).faces.length =
      g.faces.length + src.countP SrcLine.isFace + src.countP SrcLine.isQuad := by
  induction src with
  | nil => intro i g; simp [banana.loadLines]
  | cons l src ih =>
    intro i g
    have hl := hwf l (by simp)
    have ih' := ih (fun x hx => hwf x (by simp [hx])) (i + 1)
    simp only [List.map_cons, banana.loadLines]
    rw [ih']
    cases l with
    | other t =>
      have ht : firstToken t ≠ ['f'] := hl
      simp [SrcLine.text, SrcLine.isFace, SrcLine.isQuad,
        banana_lineStep_faces_other (env i) g t ht]
    | face cs =>
      obtain ⟨hlen, hok⟩ : (cs.length = 3 ∨ cs.length = 4) ∧ ∀ c ∈ cs, c.Ok := hl
      rcases hlen with hlen | hlen
      · obtain ⟨c0, c1, c2, rfl⟩ := List.length_eq_three.1 hlen
        simp only [SrcLine.text, banana_lineStep_tri (env i) g c0 c1 c2 hok]
        simp [SrcLine.isFace, SrcLine.isQuad]
        omega
      · obtain ⟨c0, c1, c2, c3, rfl⟩ : ∃ c0 c1 c2 c3, cs = [c0, c1, c2, c3] := by
          match cs, hlen with
          | [c0, c1, c2, c3], _ => exact ⟨c0, c1, c2, c3, rfl⟩
        simp only [SrcLine.text, banana_lineStep_quad (env i) g c0 c1 c2 c3 [] hok]
        simp [SrcLine.isFace, SrcLine.isQuad]
        omega

/-- For every input of the banana loader in which every face line has 3 or 4 corners `p/t/n`
and starts with `f` in its first column, the load succeeds and the number of triangles in
`faces` after `loadOBJ` is the number of face lines plus the number of 4-corner face lines. -/
theorem banana_triangle_count (env : Nat → banana.Locals) (src : List SrcLine)
    (hwf : ∀ l ∈ src, l.WellFormed) :
    ∃ g : banana.Globals, banana.loadOBJ env (some (src.map SrcLine.text)) = some g ∧
      g.faces.length = src.countP SrcLine.isFace + src.countP SrcLine.isQuad := by
  refine ⟨_, rfl, ?_⟩
  rw [banana_loadLines_faces_length env src hwf 0 ⟨[], [], [], []⟩]
  simp

theorem banana_triangle_count_witness :
    ∃ g : banana.Globals,
      banana.loadOBJ (fun _ => banana.sampleLocals)
        (some ["# banana".toList, "v 0 0 0".toList, "vt 0.5 1".toList, "vn 0 0 1".toList,
          "f 1/1/1 1/1/1 1/1/1".toList, "f 1/1/1 1/1/1 1/1/1 1/1/1".toList]) = some g ∧
      g.faces.length = 2 + 1 :=
  banana_triangle_count (fun _ => banana.sampleLocals)
    [SrcLine.other "# banana".toList, SrcLine.other "v 0 0 0".toList,
      SrcLine.other "vt 0.5 1".toList, SrcLine.other "vn 0 0 1".toList,
      SrcLine.face [⟨1, 1, 1⟩, ⟨1, 1, 1⟩, ⟨1, 1, 1⟩],
      SrcLine.face [⟨1, 1, 1⟩, ⟨1, 1, 1⟩, ⟨1, 1, 1⟩, ⟨1, 1, 1⟩]] (by
    intro l hl
    simp only [List.mem_cons, List.mem_singleton, List.not_mem_nil, or_false] at hl
    rcases hl with rfl | rfl | rfl | rfl | rfl | rfl
    · show firstToken _ ≠ _; decide
    · show firstToken _ ≠ _; decide
    · show firstToken _ ≠ _; decide
    · show firstToken _ ≠ _; decide
    · exact ⟨Or.inl rfl, by decide⟩
    · exact ⟨Or.inr rfl, by decide⟩)

/-! ## Indented face lines in the banana loader -/

/-- C1: the banana loader on a four-corner face line `p/t/n` that is indented by a blank.
The line is classified as a face line, but the scan of the whole line stops at the blank:
exactly one triangle is appended, not two, and it holds what the local arrays held, minus 1,
not the corners written. -/
theorem banana_indented_quad_one_triangle :
    (∀ (u : banana.Locals) (g : banana.Globals) (c0 c1 c2 c3 : Corner),
        banana.lineStep u g (' ' :: bananaFaceLine [c0, c1, c2, c3]) =
          { g with faces := g.faces ++ [banana.mkFace u.v u.vt u.vn 0 1 2] }) ∧
      ' ' :: bananaFaceLine [⟨1, 5, 9⟩, ⟨2, 6, 10⟩, ⟨3, 7, 11⟩, ⟨4, 8, 12⟩] =
        " f 1/5/9 2/6/10 3/7/11 4/8/12".toList ∧
      firstToken " f 1/5/9 2/6/10 3/7/11 4/8/12".toList = ['f'] ∧
      banana.lineStep banana.sampleLocals ⟨[], [], [], []⟩
          " f 1/5/9 2/6/10 3/7/11 4/8/12".toList =
        ⟨[], [], [], [⟨(76, 76, 76), (87, 87, 87), (98, 98, 98)⟩]⟩ := by
  refine ⟨fun u g c0 c1 c2 c3 => banana_lineStep_indented u g ' ' _ (by decide)
    (firstToken_indented_bananaFaceLine _), by decide, by decide, by decide⟩

/-- C2: a banana source with four position lines and one indented four-corner face line
`p/t/n`. It has one face line, which has four corners, and the loader returns one triangle,
not two. The same count results for every source that consists of one such line. -/
theorem banana_indented_quad_count :
    (∀ (env : Nat → banana.Locals) (c0 c1 c2 c3 : Corner),
        (banana.loadOBJ env (some [' ' :: bananaFaceLine [c0, c1, c2, c3]])).map
          (fun g => g.faces.length) = some 1) ∧
      (["v 0 0 0".toList, "v 1 0 0".toList, "v 1 1 0".toList, "v 0 1 0".toList,
          " f 1/1/1 2/1/1 3/1/1 4/1/1".toList].countP
        (fun l => decide (firstToken l = ['f']))) = 1 ∧
      (banana.loadOBJ (fun _ => banana.sampleLocals)
          (some ["v 0 0 0".toList, "v 1 0 0".toList, "v 1 1 0".toList, "v 0 1 0".toList,
            " f 1/1/1 2/1/1 3/1/1 4/1/1".toList])).map (fun g => g.faces.length) = some 1 := by
  refine ⟨fun env c0 c1 c2 c3 => ?_, by decide, by decide⟩
  simp only [banana.loadOBJ, Option.map_some', banana.loadLines,
    banana_lineStep_indented (env 0) _ ' ' _ (by decide) (firstToken_indented_bananaFaceLine _)]
  rfl

/-- C3: the banana loader on a three-corner face line `p/t/n` that is indented by a blank.
The triangle appended holds what the local arrays held, minus 1, whatever indices are written:
on ` f 1/5/9 2/6/10 3/7/11` with the arrays holding 77, 88 and 99, the first corner stores
`(76, 87, 98)`, and `76 + 1` is not the position index 1 written on the line. -/
theorem banana_indented_face_indices :
    (∀ (u : banana.Locals) (g : banana.Globals) (c0 c1 c2 : Corner),
        banana.lineStep u g (' ' :: bananaFaceLine [c0, c1, c2]) =
          { g with faces := g.faces ++ [banana.mkFace u.v u.vt u.vn 0 1 2] }) ∧
      ∃ f : banana.Face,
        banana.lineStep banana.sampleLocals ⟨[], [], [], []⟩ " f 1/5/9 2/6/10 3/7/11".toList =
          ⟨[], [], [], [f]⟩ ∧
        f.corner 0 = (76, 87, 98) ∧ (f.corner 0).1 + 1 ≠ 1 := by
  refine ⟨fun u g c0 c1 c2 => banana_lineStep_indented u g ' ' _ (by decide)
    (firstToken_indented_bananaFaceLine _), ⟨(76, 76, 76), (87, 87, 87), (98, 98, 98)⟩,
    by decide, by decide, by decide⟩

/-! ## The pyramid loader -/

theorem extractInt_intText (n : Int) (r : List Char) (old : Int) (hn : IsIndex n)
    (hr : StopsAt Char.isDigit r) :
    extractInt ⟨' ' :: (intText n ++ r), false⟩ old = (⟨r, false⟩, n) := by
  have hs : skipws (' ' :: (intText n ++ r)) = intText n ++ r := by
    rw [skipws_cons_of_space _ _ (by decide), skipws_intText]
  have hi := scanInteger_intText n r hr
  obtain ⟨d, t, hd, -⟩ := intText_head n
  rw [hd, List.cons_append] at hs hi
  unfold IsIndex at hn
  have h1 : ¬ n > INT_MAX := by omega
  have h2 : ¬ n < INT_MIN := by omega
  unfold extractInt
  simp only [hd, List.cons_append, hs, hi, h1, h2, if_false, Bool.false_eq_true]

theorem extractString_keyword_f (r : List Char) (old : List Char) :
    extractString (IStream.ofLine ('f' :: ' ' :: r)) old = (⟨' ' :: r, false⟩, ['f']) := by
  simp [extractString, IStream.ofLine, skipws, List.dropWhile, List.takeWhile, isspace]

/-- The pyramid loader on a face line `f a b c`, whatever follows the third index. -/
theorem pyramid_lineStep_faceLine (u : pyramid.Locals) (g : pyramid.Globals) (a b c : Int)
    (t : List Char) (ha : IsIndex a) (hb : IsIndex b) (hc : IsIndex c)
    (ht : StopsAt Char.isDigit t) :
    pyramid.lineStep u g (pyramidFaceLine a b c ++ t) =
      { g with faces := g.faces ++ [⟨a - 1, b - 1, c - 1⟩] } := by
  have hsp : ∀ r : List Char, StopsAt Char.isDigit (' ' :: r) :=
    fun r => stopsAt_cons _ _ _ (by decide)
  have hf : "f".toList = ['f'] := rfl
  have hv : "v".toList = ['v'] := rfl
  have hne : (['f'] : List Char) ≠ ['v'] := by decide
  unfold pyramid.lineStep
  simp only [pyramidFaceLine, List.cons_append, List.append_assoc, extractString_keyword_f,
    hf, hv, hne, if_false, if_true, extractInt_intText _ _ _ ha (hsp _),
    extractInt_intText _ _ _ hb (hsp _), extractInt_intText _ _ _ hc ht,
    decr_of_index _ ha, decr_of_index _ hb, decr_of_index _ hc]

theorem pyramid_lineStep_position (u : pyramid.Locals) (g : pyramid.Globals) (l : List Char)
    (h : firstToken l = ['v']) :
    pyramid.lineStep u g l =
      { g with vertices := g.vertices ++
          [extractVec3 (extractString (IStream.ofLine l) []).1 u.vertex] } := by
  have hv : "v".toList = ['v'] := rfl
  have h' : (extractString (IStream.ofLine l) []).2 = ['v'] := h
  unfold pyramid.lineStep
  simp only [hv, h', if_true]

/-- C4: in the pyramid loader a face line `f a b c` appends exactly one `Face` with corner
indices `(a-1, b-1, c-1)` and leaves the vertex collection unchanged; in particular three
position lines followed by `f 1 2 3` yield exactly one triangle, with corner indices (0,1,2). -/
theorem pyramid_face_line (u : pyramid.Locals) (g : pyramid.Globals) (a b c : Int)
    (ha : IsIndex a) (hb : IsIndex b) (hc : IsIndex c) :
    pyramid.lineStep u g (pyramidFaceLine a b c) =
        { vertices := g.vertices, faces := g.faces ++ [⟨a - 1, b - 1, c - 1⟩] } ∧
      ∀ (env : Nat → pyramid.Locals) (l1 l2 l3 : List Char),
        firstToken l1 = ['v'] → firstToken l2 = ['v'] → firstToken l3 = ['v'] →
        ∃ p1 p2 p3 : Vec3 Flt,
          pyramid.loadOBJ env (some [l1, l2, l3, "f 1 2 3".toList]) =
            some { vertices := [p1, p2, p3], faces := [⟨0, 1, 2⟩] } := by
  constructor
  · have := pyramid_lineStep_faceLine u g a b c [] ha hb hc (stopsAt_nil _)
    rw [List.append_nil] at this
    exact this
  · intro env l1 l2 l3 h1 h2 h3
    have hl : "f 1 2 3".toList = pyramidFaceLine 1 2 3 ++ [] := by decide
    refine ⟨extractVec3 (extractString (IStream.ofLine l1) []).1 (env 0).vertex,
      extractVec3 (extractString (IStream.ofLine l2) []).1 (env 1).vertex,
      extractVec3 (extractString (IStream.ofLine l3) []).1 (env 2).vertex, ?_⟩
    simp only [pyramid.loadOBJ, Option.map_some', pyramid.loadLines,
      pyramid_lineStep_position _ _ _ h1, pyramid_lineStep_position _ _ _ h2,
      pyramid_lineStep_position _ _ _ h3, hl]
    rw [pyramid_lineStep_faceLine _ _ 1 2 3 [] (by decide) (by decide) (by decide)
      (stopsAt_nil _)]
    simp

theorem pyramid_face_line_witness :
    pyramid.lineStep pyramid.sampleLocals ⟨[⟨0, 0, 0⟩], []⟩ (pyramidFaceLine 4 (-2) 10) =
        { vertices := [⟨0, 0, 0⟩], faces := [] ++ [⟨4 - 1, -2 - 1, 10 - 1⟩] } ∧
      ∀ (env : Nat → pyramid.Locals) (l1 l2 l3 : List Char),
        firstToken l1 = ['v'] → firstToken l2 = ['v'] → firstToken l3 = ['v'] →
        ∃ p1 p2 p3 : Vec3 Flt,
          pyramid.loadOBJ env (some [l1, l2, l3, "f 1 2 3".toList]) =
            some { vertices := [p1, p2, p3], faces := [⟨0, 1, 2⟩] } :=
  pyramid_face_line pyramid.sampleLocals ⟨[⟨0, 0, 0⟩], []⟩ 4 (-2) 10 (by decide) (by decide)
    (by decide)

/-! ## The cube loader -/

theorem natDigits_length_le (k : Nat) : ∀ n : Nat, n < 10 ^ (k + 1) →
    (natDigits n).length ≤ k + 1 := by
  induction k with
  | zero =>
    intro n hn
    rw [natDigits_lt n (by simpa using hn)]
    simp
  | succ k ih =>
    intro n hn
    by_cases h10 : n < 10
    · rw [natDigits_lt n h10]; simp
    · rw [natDigits_ge n (by omega)]
      have : n / 10 < 10 ^ (k + 1) := by
        rw [Nat.div_lt_iff_lt_mul (by decide)]
        rw [pow_succ] at hn
        exact hn
      have := ih (n / 10) this
      simp only [List.length_append, List.length_singleton]
      omega

theorem intText_length_le (n : Int) (h : IsIndex n) : (intText n).length ≤ 11 := by
  unfold IsIndex INT_MIN INT_MAX at h
  unfold intText
  by_cases hn : n < 0
  · have := natDigits_length_le 9 n.natAbs (by norm_num; omega)
    simp only [hn, if_true, List.length_cons]
    omega
  · have := natDigits_length_le 9 n.toNat (by norm_num; omega)
    simp only [hn, if_false]
    omega

theorem scanDigits_run (l r : List Char) (hl : ∀ c ∈ l, c.isDigit = true) (hne : l ≠ [])
    (hr : StopsAt Char.isDigit r) : scanDigits (l ++ r) = some (digitsVal l, r) := by
  have h := takeWhile_append_stop Char.isDigit l r hl hr
  unfold scanDigits
  rw [h.1, h.2]
  cases l with
  | nil => exact absurd rfl hne
  | cons d ds => rfl

theorem stopsAt_dropWhile (p : Char → Bool) (l : List Char) : StopsAt p (l.dropWhile p) := by
  induction l with
  | nil => exact stopsAt_nil p
  | cons a l ih =>
    cases ha : p a with
    | true => simpa [List.dropWhile, ha] using ih
    | false => simpa [List.dropWhile, ha] using stopsAt_cons p a l ha

theorem takeWhile_nil_of_stopsAt (p : Char → Bool) (l : List Char) (h : StopsAt p l) :
    l.takeWhile p = [] ∧ l.dropWhile p = l := by
  cases l with
  | nil => simp
  | cons a l =>
    have : p a = false := h a (by simp)
    simp [List.takeWhile, List.dropWhile, this]

/-- Scanning an integer whose text is followed by arbitrary characters: the scan succeeds, and
it returns the integer itself when no digit follows. -/
theorem scanInteger_intText_any (n : Int) (j : List Char) :
    ∃ m : Int, scanInteger (intText n ++ j) = some (m, j.dropWhile Char.isDigit) ∧
      (StopsAt Char.isDigit j → m = n) := by
  have hrun : ∀ k : Nat, scanDigits (natDigits k ++ j) =
      some (digitsVal (natDigits k ++ j.takeWhile Char.isDigit), j.dropWhile Char.isDigit) := by
    intro k
    have := scanDigits_run (natDigits k ++ j.takeWhile Char.isDigit) (j.dropWhile Char.isDigit)
      (by
        intro c hc
        rcases List.mem_append.1 hc with hc | hc
        · exact natDigits_isDigit k c hc
        · exact (List.mem_takeWhile_imp hc))
      (by simp [natDigits_ne_nil]) (stopsAt_dropWhile _ _)
    rw [List.append_assoc, List.takeWhile_append_dropWhile] at this
    exact this
  have hval : ∀ k : Nat, StopsAt Char.isDigit j →
      digitsVal (natDigits k ++ j.takeWhile Char.isDigit) = k := by
    intro k hj
    rw [(takeWhile_nil_of_stopsAt _ _ hj).1, List.append_nil, digitsVal_natDigits]
  unfold intText
  by_cases hn : n < 0
  · refine ⟨-(digitsVal (natDigits n.natAbs ++ j.takeWhile Char.isDigit) : Int), ?_, ?_⟩
    · simp only [hn, if_true, List.cons_append, scanInteger, hrun, Option.map_some']
    · intro hj
      rw [hval _ hj]
      omega
  · refine ⟨(digitsVal (natDigits n.toNat ++ j.takeWhile Char.isDigit) : Int), ?_, ?_⟩
    · simp only [hn, if_false]
      obtain ⟨d, ds, hd, hdig⟩ := natDigits_head n.toNat
      have hsc := hrun n.toNat
      rw [hd] at hsc ⊢
      have hp := isDigit_props d hdig
      simp only [List.cons_append] at hsc ⊢
      unfold scanInteger
      split
      · rename_i heq; simp only [List.cons.injEq] at heq; exact absurd heq.1 hp.1
      · rename_i heq; simp only [List.cons.injEq] at heq; exact absurd heq.1 hp.2.1
      · rw [hsc]
        simp only [Option.map_some']
    · intro hj
      rw [hval _ hj]
      omega

theorem scanDirectives_int_any (n : Int) (j : List Char) :
    ∃ m : Int, scanDirectives [Directive.int] (intText n ++ j) = ([toInt32 m], false) ∧
      (StopsAt Char.isDigit j → m = n) := by
  obtain ⟨m, hm, hmn⟩ := scanInteger_intText_any n j
  refine ⟨m, ?_, hmn⟩
  have hs := skipws_intText n j
  obtain ⟨d, t, hd, -⟩ := intText_head n
  rw [hd, List.cons_append] at hs hm ⊢
  rw [scanDirectives, hs]
  simp only [hm, scanDirectives]

theorem scanDirectives_int_space (n : Int) (ds : List Directive) (r : List Char)
    (hr : StopsAt Char.isDigit r) :
    scanDirectives (Directive.int :: ds) (' ' :: (intText n ++ r)) =
      (toInt32 n :: (scanDirectives ds r).1, (scanDirectives ds r).2) := by
  have hs : skipws (' ' :: (intText n ++ r)) = intText n ++ r := by
    rw [skipws_cons_of_space _ _ (by decide), skipws_intText]
  have hi := scanInteger_intText n r hr
  obtain ⟨d, t, hd, -⟩ := intText_head n
  rw [hd, List.cons_append] at hs hi
  rw [scanDirectives, hd, List.cons_append, hs]
  simp only [hi]

theorem cstr_append (l j : List Char) (h : ∀ c ∈ l, c ≠ '\x00') :
    cstr (l ++ j) = l ++ cstr j := by
  induction l with
  | nil => rfl
  | cons a l ih =>
    have ha : (a != '\x00') = true := by simpa using h a (by simp)
    have := ih (fun c hc => h c (by simp [hc]))
    unfold cstr at this ⊢
    rw [List.cons_append, @List.takeWhile_cons_of_pos _ (fun c => c != '\x00') a _ ha, this]
    rfl

theorem stopsAt_cstr (j : List Char) (h : StopsAt Char.isDigit j) :
    StopsAt Char.isDigit (cstr j) := by
  cases j with
  | nil => exact stopsAt_nil _
  | cons a l =>
    unfold cstr
    cases ha : (a != '\x00') with
    | false =>
      rw [@List.takeWhile_cons_of_neg _ (fun c => c != '\x00') a _ (by simp [ha])]
      exact stopsAt_nil _
    | true =>
      rw [@List.takeWhile_cons_of_pos _ (fun c => c != '\x00') a _ ha]
      exact stopsAt_cons _ _ _ (h a (by simp))

theorem cubeFaceRest_length_le (a x b y c z : Int) (ha : IsIndex a) (hx : IsIndex x)
    (hb : IsIndex b) (hy : IsIndex y) (hc : IsIndex c) (hz : IsIndex z) :
    (cubeFaceRest a x b y c z).length ≤ 128 := by
  have := intText_length_le a ha
  have := intText_length_le x hx
  have := intText_length_le b hb
  have := intText_length_le y hy
  have := intText_length_le c hc
  have := intText_length_le z hz
  simp only [cubeFaceRest, cubeFaceLine, List.drop_succ_cons, List.drop_zero, List.length_cons,
    List.length_append]
  omega

theorem cubeFaceRest_no_nul (a x b y c z : Int) :
    ∀ ch ∈ cubeFaceRest a x b y c z, ch ≠ '\x00' := by
  intro ch hch
  simp only [cubeFaceRest, cubeFaceLine, List.drop_succ_cons, List.drop_zero, List.mem_cons,
    List.mem_append] at hch
  have hsp : (' ' : Char) ≠ '\x00' := by decide
  have hsl : ('/' : Char) ≠ '\x00' := by decide
  have hi := fun n => intText_no_nul n ch
  rcases hch with h | h | h | h | h | h | h | h | h | h | h | h | h | h | h <;>
    first
      | exact hi _ h
      | (rw [h]; first | exact hsp | exact hsl)

/-- The cube loader on a face line `f a//x b//y c//z`. The last normal index is read up to the
first non-digit of the buffer, which has no terminator: it is `z - 1` when the byte of the
buffer after the characters read is not a digit. -/
theorem cube_lineStep_faceLine (u : cube.Locals) (g : cube.Globals) (a x b y c z : Int)
    (ha : IsIndex a) (hx : IsIndex x) (hb : IsIndex b) (hy : IsIndex y) (hc : IsIndex c)
    (hz : IsIndex z) :
    ∃ m : Int,
      cube.lineStep u g (cubeFaceLine a x b y c z) =
        { g with faces := g.faces ++ [⟨(a - 1, b - 1, c - 1), (x - 1, y - 1, m)⟩] } ∧
      (StopsAt Char.isDigit (u.buffer.drop (cubeFaceRest a x b y c z).length) → m = z - 1) := by
  have hlen := cubeFaceRest_length_le a x b y c z ha hx hb hy hc hz
  have hline : cubeFaceLine a x b y c z = 'f' :: cubeFaceRest a x b y c z := rfl
  have hrest : cubeFaceRest a x b y c z = ' ' :: (intText a ++ '/' :: '/' :: (intText x ++
      ' ' :: (intText b ++ '/' :: '/' :: (intText y ++ ' ' :: (intText c ++ '/' :: '/' ::
      intText z))))) := rfl
  have hkey : extractString (IStream.ofLine (cubeFaceLine a x b y c z)) [] =
      (⟨cubeFaceRest a x b y c z, false⟩, ['f']) := by
    rw [hline, hrest]; exact extractString_keyword_f _ _
  have hread : cube.read ⟨cubeFaceRest a x b y c z, false⟩ u.buffer 128 =
      cubeFaceRest a x b y c z ++ u.buffer.drop (cubeFaceRest a x b y c z).length := by
    simp only [cube.read, Bool.false_eq_true, if_false, List.take_of_length_le hlen]
  obtain ⟨m, hm, hmz⟩ := scanDirectives_int_any z
    (cstr (u.buffer.drop (cubeFaceRest a x b y c z).length))
  have hfmt : parseFormat "%d//%d %d//%d %d//%d".toList =
      [Directive.int, Directive.lit '/', Directive.lit '/', Directive.int, Directive.white,
        Directive.int, Directive.lit '/', Directive.lit '/', Directive.int, Directive.white,
        Directive.int, Directive.lit '/', Directive.lit '/', Directive.int] := by decide
  have hslash : ∀ t : List Char, StopsAt Char.isDigit ('/' :: t) :=
    fun t => stopsAt_cons _ _ _ (by decide)
  have hsp : ∀ t : List Char, StopsAt Char.isDigit (' ' :: t) :=
    fun t => stopsAt_cons _ _ _ (by decide)
  have hscan : (sscanf (cubeFaceRest a x b y c z ++
      u.buffer.drop (cubeFaceRest a x b y c z).length) "%d//%d %d//%d %d//%d".toList).2 =
      [a, x, b, y, c, toInt32 m] := by
    unfold sscanf
    rw [cstr_append _ _ (cubeFaceRest_no_nul a x b y c z), hfmt]
    generalize cstr (u.buffer.drop (cubeFaceRest a x b y c z).length) = j at hm
    simp only [hrest, List.cons_append, List.append_assoc]
    rw [scanDirectives_int_space _ _ _ (hslash _), scanDirectives_lit, scanDirectives_lit,
      scanDirectives_int _ _ _ (hsp _), scanDirectives,
      skipws_cons_of_space _ _ (by decide), skipws_intText,
      scanDirectives_int _ _ _ (hslash _), scanDirectives_lit, scanDirectives_lit,
      scanDirectives_int _ _ _ (hsp _), scanDirectives,
      skipws_cons_of_space _ _ (by decide), skipws_intText,
      scanDirectives_int _ _ _ (hslash _), scanDirectives_lit, scanDirectives_lit, hm,
      toInt32_of_index _ ha, toInt32_of_index _ hx, toInt32_of_index _ hb,
      toInt32_of_index _ hy, toInt32_of_index _ hc]
  refine ⟨decr (toInt32 m), ?_, ?_⟩
  · have hf : "f".toList = ['f'] := rfl
    have hv : "v".toList = ['v'] := rfl
    have hvn : "vn".toList = ['v', 'n'] := rfl
    have h1 : (['f'] : List Char) ≠ ['v'] := by decide
    have h2 : (['f'] : List Char) ≠ ['v', 'n'] := by decide
    unfold cube.lineStep
    simp only [hkey, hf, hv, hvn, h1, h2, if_false, if_true, hread, hscan]
    simp [decr_of_index _ ha, decr_of_index _ hx, decr_of_index _ hb, decr_of_index _ hy,
      decr_of_index _ hc]
  · intro hj
    rw [hmz (stopsAt_cstr _ hj), toInt32_of_index _ hz, decr_of_index _ hz]

/-- The cube loader on a face line `f a//x b//y c//z` when the byte of the buffer that follows
the characters read is not a digit: one `Face` with the six indices, each minus 1. -/
theorem cube_lineStep_faceLine_terminated (u : cube.Locals) (g : cube.Globals)
    (a x b y c z : Int) (ha : IsIndex a) (hx : IsIndex x) (hb : IsIndex b) (hy : IsIndex y)
    (hc : IsIndex c) (hz : IsIndex z)
    (hbuf : StopsAt Char.isDigit (u.buffer.drop (cubeFaceRest a x b y c z).length)) :
    cube.lineStep u g (cubeFaceLine a x b y c z) =
      { g with faces := g.faces ++ [⟨(a - 1, b - 1, c - 1), (x - 1, y - 1, z - 1)⟩] } := by
  obtain ⟨m, hm, hmz⟩ := cube_lineStep_faceLine u g a x b y c z ha hx hb hy hc hz
  rw [hm, hmz hbuf]

/-- C5: the cube loader on the file made of the face lines `f 1//2 2//2 13//2` and
`f 1//1 2//1 3//1`, the buffer keeping between the two lines the bytes the first one left.
For the second line the `Face` appended has `vn_indices = (0, 0, 11)`, not `(0, 0, 0)`:
`ss.read` writes no terminator and `sscanf` reads the stale `2` as a digit of the last index.
Read into a buffer of NUL bytes the same line gives `(0, 0, 0)`. -/
theorem cube_face_line_unterminated_buffer :
    cubeFaceLine 1 1 2 1 3 1 = "f 1//1 2//1 3//1".toList ∧
      cube.loadOBJ cube.staleEnv (some ["f 1//2 2//2 13//2".toList, "f 1//1 2//1 3//1".toList]) =
        some ⟨[], [], [⟨(0, 1, 12), (1, 1, 1)⟩, ⟨(0, 1, 2), (0, 0, 11)⟩]⟩ ∧
      cube.lineStep cube.staleLocals ⟨[], [], []⟩ (cubeFaceLine 1 1 2 1 3 1) =
        ⟨[], [], [⟨(0, 1, 2), (0, 0, 11)⟩]⟩ ∧
      cube.lineStep cube.zeroLocals ⟨[], [], []⟩ (cubeFaceLine 1 1 2 1 3 1) =
        ⟨[], [], [⟨(0, 1, 2), (0, 0, 0)⟩]⟩ := by
  decide

/-- C6: the flat normal the pyramid renderer computes from positions `c0, c1, c2` is the cross
product `(c1 - c0) × (c2 - c0)`, component by component, in exact arithmetic; for the positions
(0,0,0), (1,0,0), (0,1,0) it is a positive multiple of (0,0,1). -/
theorem pyramid_flat_normal_cross {α : Type} [LinearOrderedCommRing α] (c0 c1 c2 : Vec3 α) :
    (pyramid.displayNormal c0 c1 c2).toFun =
        crossProduct (c1.toFun - c0.toFun) (c2.toFun - c0.toFun) ∧
      ∃ k : α, 0 < k ∧
        pyramid.displayNormal (⟨0, 0, 0⟩ : Vec3 α) ⟨1, 0, 0⟩ ⟨0, 1, 0⟩ = ⟨k * 0, k * 0, k * 1⟩ := by
  constructor
  · rw [cross_apply]
    simp [pyramid.displayNormal, Vec3.toFun]
  · refine ⟨1, one_pos, ?_⟩
    simp [pyramid.displayNormal]

/-- C7 (as stated, refuted): four positions and the face line `f 1 2 5`. The pyramid loader
does not fail: it returns the four positions and the face with the 0-based index 4, which is
outside the position collection. -/
theorem pyramid_index_five_of_four_is_stored :
    pyramid.loadOBJ (fun _ => pyramid.sampleLocals)
        (some ["v 0 0 0".toList, "v 1 0 0".toList, "v 0 1 0".toList, "v 0 0 1".toList,
          "f 1 2 5".toList]) =
      some ⟨[⟨⟨0, 0⟩, ⟨0, 0⟩, ⟨0, 0⟩⟩, ⟨⟨1, 0⟩, ⟨0, 0⟩, ⟨0, 0⟩⟩, ⟨⟨0, 0⟩, ⟨1, 0⟩, ⟨0, 0⟩⟩,
          ⟨⟨0, 0⟩, ⟨0, 0⟩, ⟨1, 0⟩⟩], [⟨0, 1, 4⟩]⟩ := by
  decide

/-- C7 (amended): no loader checks an index against a collection, and the load of a file that
could be opened never fails. A face line is stored whatever the position collection holds, so
also when a position index, once 0-based, lies outside it. The pyramid and the cube loader
append one face whose position indices are the written ones minus 1, on an indented line too
(of the cube face only the position indices are stated here). The banana loader, on a line
of three or four corners `p/t/n` that starts with `f` in its first column, appends the
triangles of these corners with every index minus 1. -/
theorem face_index_not_range_checked (ws : List Char) (c0 c1 c2 c3 : Corner) (hws : IsBlank ws)
    (h0 : c0.Ok) (h1 : c1.Ok) (h2 : c2.Ok) (h3 : c3.Ok) :
    (∀ (u : pyramid.Locals) (g : pyramid.Globals),
        pyramid.lineStep u g (ws ++ pyramidFaceLine c0.p c1.p c2.p) =
          { g with faces := g.faces ++ [⟨c0.p - 1, c1.p - 1, c2.p - 1⟩] }) ∧
      (∀ (u : cube.Locals) (g : cube.Globals), ∃ vn : Int × Int × Int,
        cube.lineStep u g (ws ++ cubeFaceLine c0.p c0.n c1.p c1.n c2.p c2.n) =
          { g with faces := g.faces ++ [⟨(c0.p - 1, c1.p - 1, c2.p - 1), vn⟩] }) ∧
      (∀ (u : banana.Locals) (g : banana.Globals),
        banana.lineStep u g (bananaFaceLine [c0, c1, c2]) =
          { g with faces := g.faces ++ [Corner.triangle c0 c1 c2] }) ∧
      (∀ (u : banana.Locals) (g : banana.Globals),
        banana.lineStep u g (bananaFaceLine [c0, c1, c2, c3]) =
          { g with faces := g.faces ++ [Corner.triangle c0 c1 c2, Corner.triangle c0 c2 c3] }) ∧
      (∀ (env : Nat → pyramid.Locals) (ls : List (List Char)),
        pyramid.loadOBJ env (some ls) ≠ none) ∧
      (∀ (env : Nat → cube.Locals) (ls : List (List Char)),
        cube.loadOBJ env (some ls) ≠ none) ∧
      (∀ (env : Nat → banana.Locals) (ls : List (List Char)),
        banana.loadOBJ env (some ls) ≠ none) := by
  refine ⟨?_, ?_, ?_, ?_, ?_, ?_, ?_⟩
  · intro u g
    have := pyramid_lineStep_faceLine u g c0.p c1.p c2.p [] h0.1 h1.1 h2.1 (stopsAt_nil _)
    rw [List.append_nil] at this
    rw [pyramid_lineStep_indent u g ws _ hws]
    exact this
  · intro u g
    obtain ⟨m, hm, -⟩ :=
      cube_lineStep_faceLine u g c0.p c0.n c1.p c1.n c2.p c2.n h0.1 h0.2.2 h1.1 h1.2.2 h2.1
        h2.2.2
    rw [cube_lineStep_indent u g ws _ hws]
    exact ⟨_, hm⟩
  · intro u g
    apply banana_lineStep_tri
    intro c hc
    simp only [List.mem_cons, List.mem_singleton, List.not_mem_nil, or_false] at hc
    rcases hc with rfl | rfl | rfl <;> assumption
  · intro u g
    apply banana_lineStep_quad u g c0 c1 c2 c3 []
    intro c hc
    simp only [List.mem_cons, List.mem_singleton, List.not_mem_nil, or_false] at hc
    rcases hc with rfl | rfl | rfl | rfl <;> assumption
  · intro env ls; simp [pyramid.loadOBJ]
  · intro env ls; simp [cube.loadOBJ]
  · intro env ls; simp [banana.loadOBJ]

theorem face_index_not_range_checked_witness :
    (IsBlank [' ', '\t'] ∧ Corner.Ok ⟨5, 1, 1⟩ ∧ Corner.Ok ⟨2, 1, 1⟩ ∧ Corner.Ok ⟨3, 1, 1⟩ ∧
        Corner.Ok ⟨4, 1, 1⟩) ∧
      [' ', '\t'] ++ pyramidFaceLine 5 2 3 = " \tf 5 2 3".toList ∧
      bananaFaceLine [⟨5, 1, 1⟩, ⟨2, 1, 1⟩, ⟨3, 1, 1⟩] = "f 5/1/1 2/1/1 3/1/1".toList ∧
      pyramid.lineStep pyramid.sampleLocals ⟨[], []⟩ ([' ', '\t'] ++ pyramidFaceLine 5 2 3) =
        ⟨[], [⟨4, 1, 2⟩]⟩ ∧
      banana.lineStep banana.sampleLocals ⟨[], [], [], []⟩
          (bananaFaceLine [⟨5, 1, 1⟩, ⟨2, 1, 1⟩, ⟨3, 1, 1⟩]) =
        ⟨[], [], [], [⟨(4, 1, 2), (0, 0, 0), (0, 0, 0)⟩]⟩ :=
  ⟨⟨fun c hc => by
      simp only [List.mem_cons, List.mem_singleton, List.not_mem_nil, or_false] at hc
      rcases hc with rfl | rfl <;> decide,
      by decide, by decide, by decide, by decide⟩,
    by decide, by decide,
    (face_index_not_range_checked [' ', '\t'] ⟨5, 1, 1⟩ ⟨2, 1, 1⟩ ⟨3, 1, 1⟩ ⟨4, 1, 1⟩
      (fun c hc => by
        simp only [List.mem_cons, List.mem_singleton, List.not_mem_nil, or_false] at hc
        rcases hc with rfl | rfl <;> decide)
      (by decide) (by decide) (by decide) (by decide)).1 pyramid.sampleLocals ⟨[], []⟩,
    (face_index_not_range_checked [' ', '\t'] ⟨5, 1, 1⟩ ⟨2, 1, 1⟩ ⟨3, 1, 1⟩ ⟨4, 1, 1⟩
      (fun c hc => by
        simp only [List.mem_cons, List.mem_singleton, List.not_mem_nil, or_false] at hc
        rcases hc with rfl | rfl <;> decide)
      (by decide) (by decide) (by decide) (by decide)).2.2.1 banana.sampleLocals
      ⟨[], [], [], []⟩⟩

/-- C8 (as stated, refuted): four position lines and the face line `f 1 2 3 4`. The pyramid
loader yields one triangle, (0,1,2), not the two triangles (0,1,2) and (0,2,3). -/
theorem pyramid_quad_line_not_split :
    pyramid.loadOBJ (fun _ => pyramid.sampleLocals)
        (some ["v 0 0 0".toList, "v 1 0 0".toList, "v 1 1 0".toList, "v 0 1 0".toList,
          "f 1 2 3 4".toList]) =
      some ⟨[⟨⟨0, 0⟩, ⟨0, 0⟩, ⟨0, 0⟩⟩, ⟨⟨1, 0⟩, ⟨0, 0⟩, ⟨0, 0⟩⟩, ⟨⟨1, 0⟩, ⟨1, 0⟩, ⟨0, 0⟩⟩,
          ⟨⟨0, 0⟩, ⟨1, 0⟩, ⟨0, 0⟩⟩], [⟨0, 1, 2⟩]⟩ ∧
      (⟨0, 2, 3⟩ : pyramid.Face) ∉ [(⟨0, 1, 2⟩ : pyramid.Face)] := by
  decide

/-- C8 (amended): loading, with the pyramid loader, four position lines followed by the single
face line `f 1 2 3 4` yields the four positions and exactly one triangle, with corner indices
(0,1,2); the fourth index is not read. -/
theorem pyramid_quad_line_one_triangle (env : Nat → pyramid.Locals) (l1 l2 l3 l4 : List Char)
    (h1 : firstToken l1 = ['v']) (h2 : firstToken l2 = ['v']) (h3 : firstToken l3 = ['v'])
    (h4 : firstToken l4 = ['v']) :
    ∃ p1 p2 p3 p4 : Vec3 Flt,
      pyramid.loadOBJ env (some [l1, l2, l3, l4, "f 1 2 3 4".toList]) =
        some { vertices := [p1, p2, p3, p4], faces := [⟨0, 1, 2⟩] } := by
  have hl : "f 1 2 3 4".toList = pyramidFaceLine 1 2 3 ++ [' ', '4'] := by decide
  refine ⟨extractVec3 (extractString (IStream.ofLine l1) []).1 (env 0).vertex,
    extractVec3 (extractString (IStream.ofLine l2) []).1 (env 1).vertex,
    extractVec3 (extractString (IStream.ofLine l3) []).1 (env 2).vertex,
    extractVec3 (extractString (IStream.ofLine l4) []).1 (env 3).vertex, ?_⟩
  simp only [pyramid.loadOBJ, Option.map_some', pyramid.loadLines,
    pyramid_lineStep_position _ _ _ h1, pyramid_lineStep_position _ _ _ h2,
    pyramid_lineStep_position _ _ _ h3, pyramid_lineStep_position _ _ _ h4, hl]
  rw [pyramid_lineStep_faceLine _ _ 1 2 3 [' ', '4'] (by decide) (by decide) (by decide)
    (stopsAt_cons _ _ _ (by decide))]
  simp

theorem pyramid_quad_line_one_triangle_witness :
    ∃ p1 p2 p3 p4 : Vec3 Flt,
      pyramid.loadOBJ (fun _ => pyramid.sampleLocals)
          (some ["v 0 0 0".toList, "v 1.5 0 0".toList, "v 1.5 2 0".toList, "v 0 2 0".toList,
            "f 1 2 3 4".toList]) =
        some { vertices := [p1, p2, p3, p4], faces := [⟨0, 1, 2⟩] } :=
  pyramid_quad_line_one_triangle (fun _ => pyramid.sampleLocals) "v 0 0 0".toList
    "v 1.5 0 0".toList "v 1.5 2 0".toList "v 0 2 0".toList (by decide) (by decide) (by decide)
    (by decide)

/-- C9 (as stated, refuted): the banana loader on the face lines `f 1/1/1 2/2/2` and
`f 1/1/1 2/2/2 3/3/3 4/4/4 5/5/5`. The load does not fail; the first line appends one triangle
(its third corner holds what the local arrays held, minus 1) and the second appends two. -/
theorem banana_bad_corner_count_is_loaded :
    banana.loadOBJ (fun _ => banana.sampleLocals) (some ["f 1/1/1 2/2/2".toList]) =
        some ⟨[], [], [], [⟨(0, 1, 76), (0, 1, 87), (0, 1, 98)⟩]⟩ ∧
      banana.loadOBJ (fun _ => banana.sampleLocals)
          (some ["f 1/1/1 2/2/2 3/3/3 4/4/4 5/5/5".toList]) =
        some ⟨[], [], [], [⟨(0, 1, 2), (0, 1, 2), (0, 1, 2)⟩, ⟨(0, 2, 3), (0, 2, 3), (0, 2, 3)⟩]⟩ := by
  decide

/-- C9 (amended): in the banana loader a face line with fewer than 3 or more than 4 corners
`p/t/n` is not an error and the load does not fail. On such a line that starts with `f` in its
first column: with fewer than 3 corners exactly one triangle is appended, and each corner
written on the line holds its indices minus 1; with more than 4 corners exactly the two
triangles (0,1,2) and (0,2,3) of the first four corners are appended. -/
theorem banana_corner_count_not_checked (u : banana.Locals) (g : banana.Globals)
    (cs : List Corner) (hcs : ∀ c ∈ cs, c.Ok) :
    (∀ (env : Nat → banana.Locals) (ls : List (List Char)),
        banana.loadOBJ env (some ls) ≠ none) ∧
      (cs.length < 3 → ∃ f : banana.Face,
        banana.lineStep u g (bananaFaceLine cs) = { g with faces := g.faces ++ [f] } ∧
        ∀ (j : Fin 3) (c : Corner), cs[j.val]? = some c →
          f.corner j = (c.p - 1, c.t - 1, c.n - 1)) ∧
      (4 < cs.length → ∃ (c0 c1 c2 c3 : Corner) (rest : List Corner),
        cs = c0 :: c1 :: c2 :: c3 :: rest ∧
        banana.lineStep u g (bananaFaceLine cs) =
          { g with faces := g.faces ++ [Corner.triangle c0 c1 c2, Corner.triangle c0 c2 c3] }) := by
  refine ⟨fun env ls => by simp [banana.loadOBJ], ?_, ?_⟩
  · intro hlen
    rw [banana_lineStep_faceLine u g cs hcs]
    have h4 : ¬ 4 ≤ cs.length := by omega
    simp only [h4, if_false]
    refine ⟨_, rfl, ?_⟩
    match cs, hcs, hlen with
    | [], _, _ =>
      intro j c hc
      simp at hc
    | [c0], hcs, _ =>
      have h0 : c0.Ok := hcs c0 (by simp)
      intro j c hc
      fin_cases j
      · simp only [Fin.zero_eta, Fin.val_zero, List.getElem?_cons_zero,
          Option.some.injEq] at hc
        subst hc
        simp [banana.Face.corner, nth3, banana.mkFace, cornerVals, decr_of_index _ h0.1,
          decr_of_index _ h0.2.1, decr_of_index _ h0.2.2]
      · simp at hc
      · simp at hc
    | [c0, c1], hcs, _ =>
      have h0 : c0.Ok := hcs c0 (by simp)
      have h1 : c1.Ok := hcs c1 (by simp)
      intro j c hc
      fin_cases j
      · simp only [Fin.zero_eta, Fin.val_zero, List.getElem?_cons_zero,
          Option.some.injEq] at hc
        subst hc
        simp [banana.Face.corner, nth3, banana.mkFace, cornerVals, decr_of_index _ h0.1,
          decr_of_index _ h0.2.1, decr_of_index _ h0.2.2]
      · simp only [Fin.mk_one, Fin.val_one, List.getElem?_cons_succ, List.getElem?_cons_zero,
          Option.some.injEq] at hc
        subst hc
        simp [banana.Face.corner, nth3, banana.mkFace, cornerVals, decr_of_index _ h1.1,
          decr_of_index _ h1.2.1, decr_of_index _ h1.2.2]
      · simp at hc
    | _ :: _ :: _ :: _, _, hlen => simp at hlen; omega
  · intro hlen
    match cs, hcs, hlen with
    | c0 :: c1 :: c2 :: c3 :: rest, hcs, _ =>
      exact ⟨c0, c1, c2, c3, rest, rfl, banana_lineStep_quad u g c0 c1 c2 c3 rest hcs⟩

theorem banana_corner_count_not_checked_witness :
    (∀ c ∈ ([⟨1, 2, 3⟩, ⟨4, 5, 6⟩] : List Corner), c.Ok) ∧
      ∃ f : banana.Face,
        banana.lineStep banana.sampleLocals ⟨[], [], [], []⟩ "f 1/2/3 4/5/6".toList =
          { vertices := [], texcoords := [], normals := [], faces := [f] } ∧
        f.corner 0 = (0, 1, 2) ∧ f.corner 1 = (3, 4, 5) :=
  ⟨by decide,
    (((banana_corner_count_not_checked banana.sampleLocals ⟨[], [], [], []⟩
      [⟨1, 2, 3⟩, ⟨4, 5, 6⟩] (by decide)).2.1 (by decide)).imp
        fun _ h => ⟨h.1, h.2 0 ⟨1, 2, 3⟩ rfl, h.2 1 ⟨4, 5, 6⟩ rfl⟩)⟩

/-! ## Lines the loaders skip -/

theorem firstToken_of_blank (line : List Char) (h : IsBlank line) : firstToken line = [] := by
  have hs : skipws line = [] := by
    unfold skipws
    rw [List.dropWhile_eq_nil_iff]
    exact h
  simp [firstToken, extractString, IStream.ofLine, hs]

theorem firstToken_not_keyword (kw : List (List Char)) (line : List Char)
    (hkw : ∀ k ∈ kw, k ≠ [] ∧ k.head? ≠ some '#') (h : Skipped kw line) :
    firstToken line ∉ kw := by
  rcases h with h | h | h
  · rw [firstToken_of_blank line h]
    intro hmem
    exact (hkw _ hmem).1 rfl
  · intro hmem
    exact (hkw _ hmem).2 h
  · exact h

theorem pyramid_lineStep_skip (u : pyramid.Locals) (g : pyramid.Globals) (l : List Char)
    (h : firstToken l ∉ pyramid.keywords) : pyramid.lineStep u g l = g := by
  have h1 : ¬ (extractString (IStream.ofLine l) []).2 = "v".toList := by
    intro he; exact h (by simp [pyramid.keywords, firstToken, he])
  have h2 : ¬ (extractString (IStream.ofLine l) []).2 = "f".toList := by
    intro he; exact h (by simp [pyramid.keywords, firstToken, he])
  unfold pyramid.lineStep
  simp only [h1, h2, if_false]

theorem cube_lineStep_skip (u : cube.Locals) (g : cube.Globals) (l : List Char)
    (h : firstToken l ∉ cube.keywords) : cube.lineStep u g l = g := by
  have h1 : ¬ (extractString (IStream.ofLine l) []).2 = "v".toList := by
    intro he; exact h (by simp [cube.keywords, firstToken, he])
  have h2 : ¬ (extractString (IStream.ofLine l) []).2 = "vn".toList := by
    intro he; exact h (by simp [cube.keywords, firstToken, he])
  have h3 : ¬ (extractString (IStream.ofLine l) []).2 = "f".toList := by
    intro he; exact h (by simp [cube.keywords, firstToken, he])
  unfold cube.lineStep
  simp only [h1, h2, h3, if_false]

theorem banana_lineStep_skip (u : banana.Locals) (g : banana.Globals) (l : List Char)
    (h : firstToken l ∉ banana.keywords) : banana.lineStep u g l = g := by
  have h1 : ¬ (extractString (IStream.ofLine l) []).2 = "v".toList := by
    intro he; exact h (by simp [banana.keywords, firstToken, he])
  have h2 : ¬ (extractString (IStream.ofLine l) []).2 = "vt".toList := by
    intro he; exact h (by simp [banana.keywords, firstToken, he])
  have h3 : ¬ (extractString (IStream.ofLine l) []).2 = "vn".toList := by
    intro he; exact h (by simp [banana.keywords, firstToken, he])
  have h4 : ¬ (extractString (IStream.ofLine l) []).2 = "f".toList := by
    intro he; exact h (by simp [banana.keywords, firstToken, he])
  unfold banana.lineStep
  simp only [h1, h2, h3, h4, if_false]

/-- C10: in each of the three loaders a line that is blank, is a comment, or whose first token
is none of the keywords of that loader leaves every collection unchanged, and the load goes on
with the next line and does not fail. -/
theorem skipped_line_changes_nothing (l1 l2 l3 : List Char)
    (h1 : Skipped pyramid.keywords l1) (h2 : Skipped cube.keywords l2)
    (h3 : Skipped banana.keywords l3) :
    ((∀ (u : pyramid.Locals) (g : pyramid.Globals), pyramid.lineStep u g l1 = g) ∧
      (∀ (u : cube.Locals) (g : cube.Globals), cube.lineStep u g l2 = g) ∧
      (∀ (u : banana.Locals) (g : banana.Globals), banana.lineStep u g l3 = g)) ∧
    ((∀ (env : Nat → pyramid.Locals) (i : Nat) (ls : List (List Char)) (g : pyramid.Globals),
        pyramid.loadLines env i (l1 :: ls) g = pyramid.loadLines env (i + 1) ls g) ∧
      (∀ (env : Nat → cube.Locals) (i : Nat) (ls : List (List Char)) (g : cube.Globals),
        cube.loadLines env i (l2 :: ls) g = cube.loadLines env (i + 1) ls g) ∧
      (∀ (env : Nat → banana.Locals) (i : Nat) (ls : List (List Char)) (g : banana.Globals),
        banana.loadLines env i (l3 :: ls) g = banana.loadLines env (i + 1) ls g)) ∧
    ((∀ (env : Nat → pyramid.Locals) (pre post : List (List Char)),
        pyramid.loadOBJ env (some (pre ++ l1 :: post)) ≠ none) ∧
      (∀ (env : Nat → cube.Locals) (pre post : List (List Char)),
        cube.loadOBJ env (some (pre ++ l2 :: post)) ≠ none) ∧
      (∀ (env : Nat → banana.Locals) (pre post : List (List Char)),
        banana.loadOBJ env (some (pre ++ l3 :: post)) ≠ none)) := by
  have k1 := firstToken_not_keyword pyramid.keywords l1 (by decide) h1
  have k2 := firstToken_not_keyword cube.keywords l2 (by decide) h2
  have k3 := firstToken_not_keyword banana.keywords l3 (by decide) h3
  refine ⟨⟨?_, ?_, ?_⟩, ⟨?_, ?_, ?_⟩, ⟨?_, ?_, ?_⟩⟩
  · exact fun u g => pyramid_lineStep_skip u g l1 k1
  · exact fun u g => cube_lineStep_skip u g l2 k2
  · exact fun u g => banana_lineStep_skip u g l3 k3
  · intro env i ls g
    rw [pyramid.loadLines, pyramid_lineStep_skip _ g l1 k1]
  · intro env i ls g
    rw [cube.loadLines, cube_lineStep_skip _ g l2 k2]
  · intro env i ls g
    rw [banana.loadLines, banana_lineStep_skip _ g l3 k3]
  · intro env pre post; simp [pyramid.loadOBJ]
  · intro env pre post; simp [cube.loadOBJ]
  · intro env pre post; simp [banana.loadOBJ]

theorem skipped_line_changes_nothing_witness :
    (Skipped pyramid.keywords " \t ".toList ∧ Skipped cube.keywords "# cube".toList ∧
        Skipped banana.keywords "usemtl banana".toList) ∧
      (∀ (u : pyramid.Locals) (g : pyramid.Globals),
        pyramid.lineStep u g " \t ".toList = g) ∧
      (∀ (u : cube.Locals) (g : cube.Globals), cube.lineStep u g "# cube".toList = g) ∧
      (∀ (u : banana.Locals) (g : banana.Globals),
        banana.lineStep u g "usemtl banana".toList = g) :=
  ⟨⟨Or.inl (by unfold IsBlank; decide), Or.inr (Or.inl (by unfold IsComment; decide)),
      Or.inr (Or.inr (by decide))⟩,
    (skipped_line_changes_nothing " \t ".toList "# cube".toList "usemtl banana".toList
      (Or.inl (by unfold IsBlank; decide)) (Or.inr (Or.inl (by unfold IsComment; decide)))
      (Or.inr (Or.inr (by decide)))).1⟩

/-! ## Attribute lines -/

theorem firstToken_stream_good (line : List Char) (h : firstToken line ≠ []) :
    (extractString (IStream.ofLine line) []).1.fail = false := by
  unfold firstToken at h
  unfold extractString at h ⊢
  simp only [IStream.ofLine, Bool.false_eq_true, if_false] at h ⊢
  split
  · rename_i heq
    rw [heq] at h
    exact absurd rfl h
  · rfl

theorem banana_lineStep_v (u : banana.Locals) (g : banana.Globals) (l : List Char)
    (h : firstToken l = ['v']) :
    banana.lineStep u g l =
      { g with vertices := g.vertices ++
          [extractVec3 (extractString (IStream.ofLine l) []).1 u.vertex] } := by
  have hv : "v".toList = ['v'] := rfl
  have h' : (extractString (IStream.ofLine l) []).2 = ['v'] := h
  unfold banana.lineStep
  simp only [hv, h', if_true]

theorem banana_lineStep_vt (u : banana.Locals) (g : banana.Globals) (l : List Char)
    (h : firstToken l = ['v', 't']) :
    banana.lineStep u g l =
      { g with texcoords := g.texcoords ++
          [extractVec2 (extractString (IStream.ofLine l) []).1 u.texcoord] } := by
  have hv : "v".toList = ['v'] := rfl
  have hvt : "vt".toList = ['v', 't'] := rfl
  have h' : (extractString (IStream.ofLine l) []).2 = ['v', 't'] := h
  have hne : (['v', 't'] : List Char) ≠ ['v'] := by decide
  unfold banana.lineStep
  simp only [hv, hvt, h', hne, if_true, if_false]

theorem banana_lineStep_vn (u : banana.Locals) (g : banana.Globals) (l : List Char)
    (h : firstToken l = ['v', 'n']) :
    banana.lineStep u g l =
      { g with normals := g.normals ++
          [extractVec3 (extractString (IStream.ofLine l) []).1 u.normal] } := by
  have hv : "v".toList = ['v'] := rfl
  have hvt : "vt".toList = ['v', 't'] := rfl
  have hvn : "vn".toList = ['v', 'n'] := rfl
  have h' : (extractString (IStream.ofLine l) []).2 = ['v', 'n'] := h
  have hne : (['v', 'n'] : List Char) ≠ ['v'] := by decide
  have hne2 : (['v', 'n'] : List Char) ≠ ['v', 't'] := by decide
  unfold banana.lineStep
  simp only [hv, hvt, hvn, h', hne, hne2, if_true, if_false]

/-- Every step of the banana loader keeps the positions stored so far, in order, and appends
one position exactly when the line starts with the keyword `v`. -/
theorem banana_lineStep_vertices (u : banana.Locals) (g : banana.Globals) (l : List Char) :
    ∃ ext : List (Vec3 Flt), (banana.lineStep u g l).vertices = g.vertices ++ ext ∧
      ext.length = if isPositionLine l then 1 else 0 := by
  by_cases h : firstToken l = ['v']
  · refine ⟨[extractVec3 (extractString (IStream.ofLine l) []).1 u.vertex], ?_, ?_⟩
    · rw [banana_lineStep_v u g l h]
    · simp [isPositionLine, h]
  · refine ⟨[], ?_, ?_⟩
    · have hv : "v".toList = ['v'] := rfl
      have h' : ¬ (extractString (IStream.ofLine l) []).2 = ['v'] := h
      unfold banana.lineStep
      simp only [hv, h', if_false, List.append_nil]
      split
      · rfl
      · split
        · rfl
        · split
          · split <;> rfl
          · rfl
    · simp [isPositionLine, h]

theorem banana_loadLines_vertices (env : Nat → banana.Locals) (ls : List (List Char)) :
    ∀ (i : Nat) (g : banana.Globals), ∃ ext : List (Vec3 Flt),
      (banana.loadLines env i ls g).vertices = g.vertices ++ ext ∧
        ext.length = ls.countP isPositionLine := by
  induction ls with
  | nil => intro i g; exact ⟨[], by simp [banana.loadLines], by simp⟩
  | cons l ls ih =>
    intro i g
    obtain ⟨e1, h1, hl1⟩ := banana_lineStep_vertices (env i) g l
    obtain ⟨e2, h2, hl2⟩ := ih (i + 1) (banana.lineStep (env i) g l)
    refine ⟨e1 ++ e2, ?_, ?_⟩
    · rw [banana.loadLines, h2, h1, List.append_assoc]
    · rw [List.length_append, hl1, hl2, List.countP_cons]
      omega

theorem banana_loadLines_append (env : Nat → banana.Locals) (a b : List (List Char)) :
    ∀ (i : Nat) (g : banana.Globals),
      banana.loadLines env i (a ++ b) g =
        banana.loadLines env (i + a.length) b (banana.loadLines env i a g) := by
  induction a with
  | nil => intro i g; simp [banana.loadLines]
  | cons l a ih =>
    intro i g
    have harith : i + 1 + a.length = i + (a.length + 1) := by omega
    simp only [List.cons_append, banana.loadLines, List.length_cons]
    change banana.loadLines env (i + 1) (a ++ b) _ = _
    rw [ih, harith]

/-- A text that starts with no sign is read as a non-negative number. -/
theorem readFloat_sign_none : ∀ cs : List Char, StopsAt (fun c => c = '-' || c = '+') cs →
    (match cs with
      | '-' :: r => (true, r)
      | '+' :: r => (false, r)
      | _ => (false, cs)) = (false, cs) := by
  intro cs h
  split
  · exact absurd (h '-' (by simp)) (by decide)
  · exact absurd (h '+' (by simp)) (by decide)
  · rfl

/-- A text that does not continue with a point has no fraction digits. -/
theorem readFloat_fraction_none : ∀ c2 : List Char, StopsAt (fun c => c = '.') c2 →
    (match c2 with
      | '.' :: r => (r.takeWhile Char.isDigit, r.dropWhile Char.isDigit)
      | _ => ([], c2)) = ([], c2) := by
  intro c2 h
  split
  · exact absurd (h '.' (by simp)) (by decide)
  · rfl

/-- A text that does not continue with an exponent mark ends the number. -/
theorem readFloat_exponent_none (m : Int) (n : Int) : ∀ c3 : List Char,
    StopsAt (fun c => c = 'e' || c = 'E') c3 →
    (match c3 with
      | 'e' :: r => (scanInteger r).map fun p => ((⟨m, p.1 - n⟩ : Flt), p.2)
      | 'E' :: r => (scanInteger r).map fun p => ((⟨m, p.1 - n⟩ : Flt), p.2)
      | _ => some (⟨m, -n⟩, c3)) = some (⟨m, -n⟩, c3) := by
  intro c3 h
  split
  · exact absurd (h 'e' (by simp)) (by decide)
  · exact absurd (h 'E' (by simp)) (by decide)
  · rfl

theorem isDigit_numChar (c : Char) (h : c.isDigit = true) :
    c ≠ '-' ∧ c ≠ '+' ∧ c ≠ '.' ∧ c ≠ 'e' ∧ c ≠ 'E' ∧ isspace c = false := by
  have h48 := (isDigit_props c h)
  refine ⟨?_, ?_, ?_, ?_, ?_, h48.2.2.1⟩ <;>
  · rintro rfl
    exact absurd h (by decide)

theorem numChar_false (c : Char) (h : numChar c = false) :
    c.isDigit = false ∧ c ≠ '.' ∧ c ≠ 'e' ∧ c ≠ 'E' := by
  simp only [numChar, Bool.or_eq_false_iff, decide_eq_false_iff_not] at h
  exact ⟨h.1.1.1, h.1.1.2, h.1.2, h.2⟩

/-- Reading the text of a well-formed number gives the decimal number it denotes and leaves
what follows it. -/
theorem readFloat_numText (t : NumText) (hwf : t.WellFormed) (r : List Char)
    (hr : StopsAt numChar r) : readFloat (t.text ++ r) = some (t.value, r) := by
  obtain ⟨sign, ip, frac, expo⟩ := t
  obtain ⟨hs, hip, hfp, hne⟩ := hwf
  simp only [NumText.fracDigits] at hip hfp hne
  have hrd : StopsAt Char.isDigit r := fun c hc => (numChar_false c (hr c hc)).1
  have hrdot : StopsAt (fun c => decide (c = '.')) r := fun c hc => by
    simpa using (numChar_false c (hr c hc)).2.1
  have hre : StopsAt (fun c => decide (c = 'e') || decide (c = 'E')) r := fun c hc => by
    simpa using (numChar_false c (hr c hc)).2.2
  -- the exponent and what follows it
  have hexpo : ∀ (m n : Int),
      (match (NumText.expoText ⟨sign, ip, frac, expo⟩ ++ r) with
        | 'e' :: r => (scanInteger r).map fun p => ((⟨m, p.1 - n⟩ : Flt), p.2)
        | 'E' :: r => (scanInteger r).map fun p => ((⟨m, p.1 - n⟩ : Flt), p.2)
        | _ => some (⟨m, -n⟩, NumText.expoText ⟨sign, ip, frac, expo⟩ ++ r)) =
        some (⟨m, expo.getD 0 - n⟩, r) := by
    intro m n
    cases expo with
    | none =>
      simp only [NumText.expoText, List.nil_append, Option.getD_none, Int.zero_sub]
      exact readFloat_exponent_none m n r hre
    | some k =>
      simp only [NumText.expoText, List.cons_append, Option.getD_some,
        scanInteger_intText k r hrd, Option.map_some']
  have hexd : StopsAt Char.isDigit (NumText.expoText ⟨sign, ip, frac, expo⟩ ++ r) := by
    cases expo with
    | none => simpa [NumText.expoText] using hrd
    | some k => exact stopsAt_cons _ _ _ (by decide)
  have hexdot : StopsAt (fun c => decide (c = '.'))
      (NumText.expoText ⟨sign, ip, frac, expo⟩ ++ r) := by
    cases expo with
    | none => simpa [NumText.expoText] using hrdot
    | some k => exact stopsAt_cons _ _ _ (by decide)
  -- the fraction
  have hfrac :
      (match (NumText.fracText ⟨sign, ip, frac, expo⟩ ++
          (NumText.expoText ⟨sign, ip, frac, expo⟩ ++ r)) with
        | '.' :: r => (r.takeWhile Char.isDigit, r.dropWhile Char.isDigit)
        | _ => ([], NumText.fracText ⟨sign, ip, frac, expo⟩ ++
          (NumText.expoText ⟨sign, ip, frac, expo⟩ ++ r))) =
        (frac.getD [], NumText.expoText ⟨sign, ip, frac, expo⟩ ++ r) := by
    cases frac with
    | none =>
      simp only [NumText.fracText, List.nil_append, Option.getD_none]
      exact readFloat_fraction_none _ hexdot
    | some fp =>
      have h := takeWhile_append_stop Char.isDigit fp _ hfp hexd
      simp only [NumText.fracText, List.cons_append, Option.getD_some, h.1, h.2]
  have hfd : StopsAt Char.isDigit (NumText.fracText ⟨sign, ip, frac, expo⟩ ++
      (NumText.expoText ⟨sign, ip, frac, expo⟩ ++ r)) := by
    cases frac with
    | none => simpa [NumText.fracText] using hexd
    | some fp => exact stopsAt_cons _ _ _ (by decide)
  have hint := takeWhile_append_stop Char.isDigit ip _ hip hfd
  have hne' : ¬ (ip = [] ∧ frac.getD [] = []) := fun h => hne.elim (fun a => a h.1) (fun a => a h.2)
  have hhead : StopsAt (fun c => decide (c = '-') || decide (c = '+'))
      (ip ++ (NumText.fracText ⟨sign, ip, frac, expo⟩ ++
        (NumText.expoText ⟨sign, ip, frac, expo⟩ ++ r))) := by
    cases ip with
    | nil =>
      cases frac with
      | none => exact absurd ⟨rfl, rfl⟩ hne'
      | some fp => exact stopsAt_cons _ _ _ (by decide)
    | cons d ds =>
      have hd := isDigit_numChar d (hip d (by simp))
      exact stopsAt_cons _ _ _ (by simp [hd.1, hd.2.1])
  simp only [NumText.text, NumText.value, NumText.fracDigits, List.append_assoc]
  rcases hs with rfl | rfl | rfl
  · simp only [List.nil_append]
    unfold readFloat
    simp only [readFloat_sign_none _ hhead, hint.1, hint.2, hfrac, hne', if_false, hexpo]
    simp
  · simp only [List.cons_append, List.nil_append]
    unfold readFloat
    simp only [hint.1, hint.2, hfrac, hne', if_false, hexpo]
    simp
  · simp only [List.cons_append, List.nil_append]
    unfold readFloat
    simp only [hint.1, hint.2, hfrac, hne', if_false, hexpo]

theorem isspace_not_numChar (c : Char) (h : isspace c = true) : numChar c = false := by
  simp only [isspace, Bool.or_eq_true, decide_eq_true_eq] at h
  rcases h with ((((h | h) | h) | h) | h) | h <;> (rw [h]; decide)

theorem stopsAt_numChar_of_space (r : List Char) (h : StopsAt (fun c => !isspace c) r) :
    StopsAt numChar r := by
  intro c hc
  exact isspace_not_numChar c (by simpa using h c hc)

theorem stopsAt_sep (s r : List Char) (hs : IsSep s) :
    StopsAt numChar (s ++ r) ∧ StopsAt (fun x => !isspace x) (s ++ r) := by
  obtain ⟨hne, hsp⟩ := hs
  cases s with
  | nil => exact absurd rfl hne
  | cons a s =>
    have ha : isspace a = true := hsp a (by simp)
    exact ⟨stopsAt_cons _ _ _ (isspace_not_numChar a ha), stopsAt_cons _ _ _ (by simp [ha])⟩

/-- The text of a well-formed number starts with a character that is not white space. -/
theorem numText_head (t : NumText) (hwf : t.WellFormed) (r : List Char) :
    ∃ c cs, t.text ++ r = c :: cs ∧ isspace c = false := by
  obtain ⟨sign, ip, frac, expo⟩ := t
  obtain ⟨hs, hip, hfp, hne⟩ := hwf
  simp only [NumText.fracDigits] at hip hfp hne
  simp only [NumText.text, List.append_assoc]
  rcases hs with rfl | rfl | rfl
  · cases ip with
    | nil =>
      cases frac with
      | none => exact absurd rfl (hne.elim id id)
      | some fp => exact ⟨'.', _, rfl, by decide⟩
    | cons d ds => exact ⟨d, _, rfl, (isDigit_numChar d (hip d (by simp))).2.2.2.2.2⟩
  · exact ⟨'+', _, rfl, by decide⟩
  · exact ⟨'-', _, rfl, by decide⟩

/-- The call `ss >> f` on white space followed by a well-formed number in the range of
`float` stores the number rounded to `float` and leaves the stream good, at the text after
the number. -/
theorem extractFloat_numText (s : List Char) (t : NumText) (f : Flt) (r : List Char) (old : Flt)
    (hs : ∀ c ∈ s, isspace c = true) (ht : t.Reads f) (hr : StopsAt numChar r) :
    extractFloat ⟨s ++ (t.text ++ r), false⟩ old = (⟨r, false⟩, f) := by
  obtain ⟨c, cs, hcs, hc⟩ := numText_head t ht.1 r
  have hread := readFloat_numText t ht.1 r hr
  rw [hcs] at hread
  unfold extractFloat
  simp only [Bool.false_eq_true, if_false, skipws_blank_append s _ hs, hcs,
    skipws_cons_of_not_space c cs hc, hread, ht.2]

/-- The call `ss >> prefix` on an indented line reads the keyword and stops before the white
space after it. -/
theorem extractString_keyword (ws kw rest old : List Char) (hws : ∀ c ∈ ws, isspace c = true)
    (hne : kw ≠ []) (hkw : ∀ c ∈ kw, isspace c = false)
    (hrest : StopsAt (fun x => !isspace x) rest) :
    extractString (IStream.ofLine (ws ++ (kw ++ rest))) old = (⟨rest, false⟩, kw) := by
  cases kw with
  | nil => exact absurd rfl hne
  | cons k ks =>
    have h := takeWhile_append_stop (fun x => !isspace x) (k :: ks) rest
      (fun c hc => by simp [hkw c hc]) hrest
    rw [List.cons_append] at h
    unfold extractString
    simp only [IStream.ofLine, Bool.false_eq_true, if_false, skipws_blank_append ws _ hws,
      List.cons_append, skipws_cons_of_not_space k _ (hkw k (by simp)), h.1, h.2]

/-- The three extractions of a `v` or `vn` line whose fields are well-formed numbers. -/
theorem extractVec3_numText (s1 s2 s3 tail : List Char) (x y z : NumText) (fx fy fz : Flt)
    (old : Vec3 Flt) (h1 : IsSep s1) (h2 : IsSep s2) (h3 : IsSep s3)
    (ht : StopsAt numChar tail) (hx : x.Reads fx) (hy : y.Reads fy) (hz : z.Reads fz) :
    extractVec3 ⟨s1 ++ (x.text ++ (s2 ++ (y.text ++ (s3 ++ (z.text ++ tail))))), false⟩ old =
      ⟨fx, fy, fz⟩ := by
  unfold extractVec3
  simp only [extractFloat_numText s1 x fx _ _ h1.2 hx (stopsAt_sep s2 _ h2).1,
    extractFloat_numText s2 y fy _ _ h2.2 hy (stopsAt_sep s3 _ h3).1,
    extractFloat_numText s3 z fz _ _ h3.2 hz ht]

/-- The two extractions of a `vt` line whose fields are well-formed numbers. -/
theorem extractVec2_numText (s1 s2 tail : List Char) (a b : NumText) (fa fb : Flt)
    (old : Vec2 Flt) (h1 : IsSep s1) (h2 : IsSep s2)
    (ht : StopsAt numChar tail) (ha : a.Reads fa) (hb : b.Reads fb) :
    extractVec2 ⟨s1 ++ (a.text ++ (s2 ++ (b.text ++ tail))), false⟩ old = ⟨fa, fb⟩ := by
  unfold extractVec2
  simp only [extractFloat_numText s1 a fa _ _ h1.2 ha (stopsAt_sep s2 _ h2).1,
    extractFloat_numText s2 b fb _ _ h2.2 hb ht]

/-- The position a well-formed `v x y z` line at place `i` of the source is stored at. -/
theorem banana_position_index (env : Nat → banana.Locals) (lines : List (List Char)) (i : Nat)
    (lv : List Char) (p : Vec3 Flt) (hi : lines[i]? = some lv)
    (hv : ∀ (u : banana.Locals) (g : banana.Globals),
      banana.lineStep u g lv = { g with vertices := g.vertices ++ [p] }) :
    ∃ g : banana.Globals, banana.loadOBJ env (some lines) = some g ∧
      g.vertices[(lines.take i).countP isPositionLine]? = some p := by
  refine ⟨_, rfl, ?_⟩
  have hlt : i < lines.length := by
    rcases Nat.lt_or_ge i lines.length with h | h
    · exact h
    · rw [List.getElem?_eq_none h] at hi; exact absurd hi (by simp)
  have hsplit : lines = lines.take i ++ lv :: lines.drop (i + 1) := by
    have hget : lines[i] = lv := by
      rw [List.getElem?_eq_getElem hlt] at hi
      exact Option.some.inj hi
    rw [← hget, ← List.drop_eq_getElem_cons hlt, List.take_append_drop]
  obtain ⟨e1, h1, hl1⟩ := banana_loadLines_vertices env (lines.take i) 0 ⟨[], [], [], []⟩
  have hstep := hv (env (0 + (lines.take i).length))
    (banana.loadLines env 0 (lines.take i) ⟨[], [], [], []⟩)
  obtain ⟨e2, h2, -⟩ := banana_loadLines_vertices env (lines.drop (i + 1))
    (0 + (lines.take i).length + 1)
    (banana.lineStep (env (0 + (lines.take i).length))
      (banana.loadLines env 0 (lines.take i) ⟨[], [], [], []⟩) lv)
  have hall : (banana.loadLines env 0 lines ⟨[], [], [], []⟩).vertices =
      e1 ++ (p :: e2) := by
    conv_lhs => rw [hsplit]
    rw [banana_loadLines_append, banana.loadLines, h2, hstep]
    simp only [h1, List.nil_append, List.append_assoc, List.singleton_append]
  rw [hall, ← hl1, List.getElem?_append_right (Nat.le_refl _)]
  simp

/-- The banana loader on a well-formed `v` line. -/
theorem banana_lineStep_v_numText (u : banana.Locals) (g : banana.Globals)
    (ws s1 s2 s3 tail : List Char) (x y z : NumText) (fx fy fz : Flt)
    (hl : LineLayout ws s1 s2 s3 tail) (hx : x.Reads fx) (hy : y.Reads fy) (hz : z.Reads fz) :
    banana.lineStep u g (vec3Line ws ['v'] s1 x s2 y s3 z tail) =
      { g with vertices := g.vertices ++ [⟨fx, fy, fz⟩] } := by
  obtain ⟨hws, h1, h2, h3, ht'⟩ := hl
  have ht := stopsAt_numChar_of_space tail ht'
  have hk := extractString_keyword ws ['v'] _ [] hws (by decide) (by decide)
    (stopsAt_sep s1 (x.text ++ (s2 ++ (y.text ++ (s3 ++ (z.text ++ tail))))) h1).2
  rw [banana_lineStep_v u g _ (by unfold firstToken vec3Line; rw [hk])]
  unfold vec3Line
  rw [hk, extractVec3_numText s1 s2 s3 tail x y z fx fy fz _ h1 h2 h3 ht hx hy hz]

/-- C11: in the banana loader a well-formed line `v x y z` (the keyword, then three numbers
written in decimal and in the range of `float`, each after white space; the line may be
indented, and white space and anything after it may follow the third number) appends exactly
one entry to the position collection, the three numbers rounded to `float`, keeps the earlier
entries in order and leaves the other collections unchanged; likewise `vt u v` for the
texcoords and `vn x y z` for the normals. Hence after loading, a well-formed `v` line preceded
by `k - 1` lines starting with `v` is stored at index `k - 1`. -/
theorem banana_attribute_lines (ws s1 s2 s3 tail : List Char) (x y z : NumText)
    (fx fy fz : Flt) (hl : LineLayout ws s1 s2 s3 tail) (hx : x.Reads fx) (hy : y.Reads fy)
    (hz : z.Reads fz) :
    (∀ (u : banana.Locals) (g : banana.Globals),
        banana.lineStep u g (vec3Line ws ['v'] s1 x s2 y s3 z tail) =
          { vertices := g.vertices ++ [⟨fx, fy, fz⟩], texcoords := g.texcoords,
            normals := g.normals, faces := g.faces }) ∧
      (∀ (u : banana.Locals) (g : banana.Globals),
        banana.lineStep u g (vec2Line ws ['v', 't'] s1 x s2 y tail) =
          { vertices := g.vertices, texcoords := g.texcoords ++ [⟨fx, fy⟩],
            normals := g.normals, faces := g.faces }) ∧
      (∀ (u : banana.Locals) (g : banana.Globals),
        banana.lineStep u g (vec3Line ws ['v', 'n'] s1 x s2 y s3 z tail) =
          { vertices := g.vertices, texcoords := g.texcoords,
            normals := g.normals ++ [⟨fx, fy, fz⟩], faces := g.faces }) ∧
      (∀ (env : Nat → banana.Locals) (lines : List (List Char)) (i : Nat),
        lines[i]? = some (vec3Line ws ['v'] s1 x s2 y s3 z tail) →
        ∃ g : banana.Globals, banana.loadOBJ env (some lines) = some g ∧
          g.vertices[(lines.take i).countP isPositionLine]? = some ⟨fx, fy, fz⟩) := by
  have hl' := hl
  obtain ⟨hws, h1, h2, h3, ht'⟩ := hl'
  have ht := stopsAt_numChar_of_space tail ht'
  refine ⟨?_, ?_, ?_, ?_⟩
  · intro u g
    exact banana_lineStep_v_numText u g ws s1 s2 s3 tail x y z fx fy fz hl hx hy hz
  · intro u g
    have hk := extractString_keyword ws ['v', 't'] _ [] hws (by decide) (by decide)
      (stopsAt_sep s1 (x.text ++ (s2 ++ (y.text ++ tail))) h1).2
    rw [banana_lineStep_vt u g _ (by unfold firstToken vec2Line; rw [hk])]
    unfold vec2Line
    rw [hk, extractVec2_numText s1 s2 tail x y fx fy _ h1 h2 ht hx hy]
  · intro u g
    have hk := extractString_keyword ws ['v', 'n'] _ [] hws (by decide) (by decide)
      (stopsAt_sep s1 (x.text ++ (s2 ++ (y.text ++ (s3 ++ (z.text ++ tail))))) h1).2
    rw [banana_lineStep_vn u g _ (by unfold firstToken vec3Line; rw [hk])]
    unfold vec3Line
    rw [hk, extractVec3_numText s1 s2 s3 tail x y z fx fy fz _ h1 h2 h3 ht hx hy hz]
  · intro env lines i hi
    exact banana_position_index env lines i _ ⟨fx, fy, fz⟩ hi
      (fun u g => banana_lineStep_v_numText u g ws s1 s2 s3 tail x y z fx fy fz hl hx hy hz)

theorem banana_attribute_lines_witness :
    (LineLayout [' '] [' '] [' ', ' '] ['\t'] " # tip".toList ∧
        NumText.Reads ⟨[], ['1'], some ['5'], none⟩ ⟨15, -1⟩ ∧
        NumText.Reads ⟨['-'], ['2'], none, none⟩ ⟨-2, 0⟩ ∧
        NumText.Reads ⟨[], ['3'], none, some 1⟩ ⟨30, 0⟩ ∧
        vec3Line [' '] ['v'] [' '] ⟨[], ['1'], some ['5'], none⟩ [' ', ' ']
            ⟨['-'], ['2'], none, none⟩ ['\t'] ⟨[], ['3'], none, some 1⟩ " # tip".toList =
          " v 1.5  -2\t3e1 # tip".toList) ∧
      ∃ g : banana.Globals,
        banana.loadOBJ (fun _ => banana.sampleLocals)
            (some ["v 0 0 0".toList, "# second position".toList,
              " v 1.5  -2\t3e1 # tip".toList]) =
          some g ∧
        g.vertices[(["v 0 0 0".toList, "# second position".toList,
            " v 1.5  -2\t3e1 # tip".toList].take 2).countP isPositionLine]? =
          some ⟨⟨15, -1⟩, ⟨-2, 0⟩, ⟨30, 0⟩⟩ :=
  ⟨⟨⟨by decide, by decide, by decide, by decide, stopsAt_cons _ _ _ (by decide)⟩,
      ⟨by decide, by decide⟩, ⟨by decide, by decide⟩, ⟨by decide, by decide⟩, by decide⟩,
    (banana_attribute_lines [' '] [' '] [' ', ' '] ['\t'] " # tip".toList
      ⟨[], ['1'], some ['5'], none⟩ ⟨['-'], ['2'], none, none⟩ ⟨[], ['3'], none, some 1⟩
      ⟨15, -1⟩ ⟨-2, 0⟩ ⟨30, 0⟩
      ⟨by decide, by decide, by decide, by decide, stopsAt_cons _ _ _ (by decide)⟩
      ⟨by decide, by decide⟩ ⟨by decide, by decide⟩ ⟨by decide, by decide⟩).2.2.2
      (fun _ => banana.sampleLocals)
      ["v 0 0 0".toList, "# second position".toList, " v 1.5  -2\t3e1 # tip".toList] 2 rfl⟩

set_option maxRecDepth 100000 in
/-- Sample conversions to `float`: 0.1 is stored as 0.100000001490116119384765625, 16777217
as 16777216 (a tie, rounded to even), 3.4028235e38 as `FLT_MAX`, 1e-46 as 0, and 3.4028236e38
and 1e40 are out of range. -/
theorem toFloat_samples :
    toFloat ⟨1, -1⟩ = some ⟨100000001490116119384765625, -27⟩ ∧
      toFloat ⟨16777217, 0⟩ = some ⟨16777216, 0⟩ ∧
      toFloat ⟨34028235, 31⟩ = some FLT_MAX ∧
      toFloat ⟨1, -46⟩ = some ⟨0, 0⟩ ∧
      toFloat ⟨34028236, 31⟩ = none ∧
      toFloat ⟨1, 40⟩ = none := by
  decide

set_option maxRecDepth 100000 in
/-- A position line whose first number is out of the range of `float`: `FLT_MAX` is stored for
it, the stream fails, and the two later fields keep what the local `vertex` held. -/
theorem position_out_of_float_range :
    pyramid.lineStep ⟨⟨⟨7, 0⟩, ⟨8, 0⟩, ⟨9, 0⟩⟩, ⟨0, 0, 0⟩⟩ ⟨[], []⟩ "v 1e40 2 3".toList =
        ⟨[⟨FLT_MAX, ⟨8, 0⟩, ⟨9, 0⟩⟩], []⟩ ∧
      banana.lineStep ⟨⟨⟨7, 0⟩, ⟨8, 0⟩, ⟨9, 0⟩⟩, ⟨0, 0⟩, ⟨0, 0, 0⟩, fun _ => 0, fun _ => 0,
          fun _ => 0⟩ ⟨[], [], [], []⟩ "v -1e40 2 3".toList =
        ⟨[⟨⟨-FLT_MAX.mant, 0⟩, ⟨8, 0⟩, ⟨9, 0⟩⟩], [], [], []⟩ := by
  decide

theorem cube_lineStep_v (u : cube.Locals) (g : cube.Globals) (l : List Char)
    (h : firstToken l = ['v']) :
    cube.lineStep u g l =
      { g with vertices := g.vertices ++
          [extractVec3 (extractString (IStream.ofLine l) []).1 u.vertex] } := by
  have hv : "v".toList = ['v'] := rfl
  have h' : (extractString (IStream.ofLine l) []).2 = ['v'] := h
  unfold cube.lineStep
  simp only [hv, h', if_true]

theorem cube_lineStep_vn (u : cube.Locals) (g : cube.Globals) (l : List Char)
    (h : firstToken l = ['v', 'n']) :
    cube.lineStep u g l =
      { g with normals := g.normals ++
          [extractVec3 (extractString (IStream.ofLine l) []).1 u.normal] } := by
  have hv : "v".toList = ['v'] := rfl
  have hvn : "vn".toList = ['v', 'n'] := rfl
  have h' : (extractString (IStream.ofLine l) []).2 = ['v', 'n'] := h
  have hne : (['v', 'n'] : List Char) ≠ ['v'] := by decide
  unfold cube.lineStep
  simp only [hv, hvn, h', hne, if_true, if_false]

/-- C12 (as stated, refuted): the line `v 1.0 abc 2.0` alone in a file. In each of the three
loaders the load does not fail and one position is appended for the line: `x` is 1.0, `y` is
the 0 stored by the failed extraction and `z` is what the local `vertex` held. -/
theorem malformed_position_line_is_loaded :
    pyramid.loadOBJ (fun _ => pyramid.sampleLocals) (some ["v 1.0 abc 2.0".toList]) =
        some ⟨[⟨⟨1, 0⟩, ⟨0, 0⟩, ⟨0, 0⟩⟩], []⟩ ∧
      cube.loadOBJ (fun _ => cube.zeroLocals) (some ["v 1.0 abc 2.0".toList]) =
        some ⟨[⟨⟨1, 0⟩, ⟨0, 0⟩, ⟨0, 0⟩⟩], [], []⟩ ∧
      banana.loadOBJ (fun _ => banana.sampleLocals) (some ["v 1.0 abc 2.0".toList]) =
        some ⟨[⟨⟨1, 0⟩, ⟨0, 0⟩, ⟨0, 0⟩⟩], [], [], []⟩ := by
  decide

/-- C12 (amended): in every loader a position, normal or texcoord line is not checked: whatever
follows the keyword, also a malformed or missing number, the load does not fail and exactly one
entry is appended to the collection of that keyword, the other collections staying as they
are. -/
theorem attribute_line_not_checked (lv lt ln : List Char) (hv : firstToken lv = ['v'])
    (ht : firstToken lt = ['v', 't']) (hn : firstToken ln = ['v', 'n']) :
    ((∀ (u : pyramid.Locals) (g : pyramid.Globals), ∃ p : Vec3 Flt,
        pyramid.lineStep u g lv = { g with vertices := g.vertices ++ [p] }) ∧
      (∀ (u : cube.Locals) (g : cube.Globals), ∃ p : Vec3 Flt,
        cube.lineStep u g lv = { g with vertices := g.vertices ++ [p] }) ∧
      (∀ (u : cube.Locals) (g : cube.Globals), ∃ p : Vec3 Flt,
        cube.lineStep u g ln = { g with normals := g.normals ++ [p] }) ∧
      (∀ (u : banana.Locals) (g : banana.Globals), ∃ p : Vec3 Flt,
        banana.lineStep u g lv = { g with vertices := g.vertices ++ [p] }) ∧
      (∀ (u : banana.Locals) (g : banana.Globals), ∃ p : Vec2 Flt,
        banana.lineStep u g lt = { g with texcoords := g.texcoords ++ [p] }) ∧
      (∀ (u : banana.Locals) (g : banana.Globals), ∃ p : Vec3 Flt,
        banana.lineStep u g ln = { g with normals := g.normals ++ [p] })) ∧
    ((∀ (env : Nat → pyramid.Locals) (ls : List (List Char)),
        pyramid.loadOBJ env (some ls) ≠ none) ∧
      (∀ (env : Nat → cube.Locals) (ls : List (List Char)),
        cube.loadOBJ env (some ls) ≠ none) ∧
      (∀ (env : Nat → banana.Locals) (ls : List (List Char)),
        banana.loadOBJ env (some ls) ≠ none)) := by
  refine ⟨⟨?_, ?_, ?_, ?_, ?_, ?_⟩, ⟨?_, ?_, ?_⟩⟩
  · exact fun u g => ⟨_, pyramid_lineStep_position u g lv hv⟩
  · exact fun u g => ⟨_, cube_lineStep_v u g lv hv⟩
  · exact fun u g => ⟨_, cube_lineStep_vn u g ln hn⟩
  · exact fun u g => ⟨_, banana_lineStep_v u g lv hv⟩
  · exact fun u g => ⟨_, banana_lineStep_vt u g lt ht⟩
  · exact fun u g => ⟨_, banana_lineStep_vn u g ln hn⟩
  · intro env ls; simp [pyramid.loadOBJ]
  · intro env ls; simp [cube.loadOBJ]
  · intro env ls; simp [banana.loadOBJ]

theorem attribute_line_not_checked_witness :
    (firstToken "v 1.0 abc 2.0".toList = ['v'] ∧ firstToken "vt 0.5".toList = ['v', 't'] ∧
        firstToken "vn x y z".toList = ['v', 'n']) ∧
      (∀ (u : pyramid.Locals) (g : pyramid.Globals), ∃ p : Vec3 Flt,
        pyramid.lineStep u g "v 1.0 abc 2.0".toList =
          { g with vertices := g.vertices ++ [p] }) ∧
      (∀ (u : banana.Locals) (g : banana.Globals), ∃ p : Vec2 Flt,
        banana.lineStep u g "vt 0.5".toList = { g with texcoords := g.texcoords ++ [p] }) :=
  ⟨⟨by decide, by decide, by decide⟩,
    (attribute_line_not_checked "v 1.0 abc 2.0".toList "vt 0.5".toList "vn x y z".toList
      (by decide) (by decide) (by decide)).1.1,
    (attribute_line_not_checked "v 1.0 abc 2.0".toList "vt 0.5".toList "vn x y z".toList
      (by decide) (by decide) (by decide)).1.2.2.2.2.1⟩

/-- C13: the winding order of a face determines the sign of the flat normal of the pyramid
renderer: in exact arithmetic the normal computed for the corner order (c0, c2, c1) is the
negation, component by component, of the normal computed for (c0, c1, c2). -/
theorem pyramid_normal_winding {α : Type} [CommRing α] (c0 c1 c2 : Vec3 α) :
    (pyramid.displayNormal c0 c2 c1).x = -(pyramid.displayNormal c0 c1 c2).x ∧
      (pyramid.displayNormal c0 c2 c1).y = -(pyramid.displayNormal c0 c1 c2).y ∧
      (pyramid.displayNormal c0 c2 c1).z = -(pyramid.displayNormal c0 c1 c2).z ∧
      (pyramid.displayNormal c0 c2 c1).toFun = -(pyramid.displayNormal c0 c1 c2).toFun := by
  refine ⟨?_, ?_, ?_, ?_⟩
  · simp only [pyramid.displayNormal]; ring
  · simp only [pyramid.displayNormal]; ring
  · simp only [pyramid.displayNormal]; ring
  · funext i
    fin_cases i <;> simp [pyramid.displayNormal, Vec3.toFun] <;> ring

/-! ## The pixel grid -/

theorem pixel_grid_mouse_cellValid (fl : ℚ → ℚ) (g : pixel_grid.Globals)
    (button state x y : Int) (h : pixel_grid.CellValid g.selectedCell) :
    pixel_grid.CellValid (pixel_grid.mouse fl g button state x y).selectedCell := by
  unfold pixel_grid.mouse
  split
  · split
    · rename_i hin
      right
      simp only [pixel_grid.NUM_COLS, pixel_grid.NUM_ROWS] at hin
      exact ⟨hin.1, hin.2.1, hin.2.2.1, hin.2.2.2⟩
    · exact h
  · exact h

theorem pixel_grid_mouse_window (fl : ℚ → ℚ) (g : pixel_grid.Globals)
    (button state x y : Int) :
    (pixel_grid.mouse fl g button state x y).windowWidth = g.windowWidth ∧
      (pixel_grid.mouse fl g button state x y).windowHeight = g.windowHeight := by
  unfold pixel_grid.mouse
  split
  · split <;> exact ⟨rfl, rfl⟩
  · exact ⟨rfl, rfl⟩

theorem pixel_grid_foldl_invariant (fl : ℚ → ℚ) (es : List pixel_grid.Event)
    (hpos : ∀ e ∈ es, e.Positive) : ∀ g : pixel_grid.Globals,
    (pixel_grid.CellValid g.selectedCell ∧ 0 < g.windowWidth ∧ 0 < g.windowHeight) →
    (pixel_grid.CellValid (es.foldl (pixel_grid.step fl) g).selectedCell ∧
      0 < (es.foldl (pixel_grid.step fl) g).windowWidth ∧
      0 < (es.foldl (pixel_grid.step fl) g).windowHeight) := by
  induction es with
  | nil => intro g hg; exact hg
  | cons e es ih =>
    intro g hg
    rw [List.foldl_cons]
    apply ih (fun x hx => hpos x (by simp [hx]))
    have he := hpos e (by simp)
    cases e with
    | mouse button state x y =>
      have hw := pixel_grid_mouse_window fl g button state x y
      exact ⟨pixel_grid_mouse_cellValid fl g button state x y hg.1,
        by simp only [pixel_grid.step]; rw [hw.1]; exact hg.2.1,
        by simp only [pixel_grid.step]; rw [hw.2]; exact hg.2.2⟩
    | reshape w h =>
      exact ⟨hg.1, he.1, he.2⟩

/-- C16: in every state of the pixel-grid program reached from the initial state by mouse and
reshape events with positive window dimensions, `selectedCell` is (-1, -1) or a pair
(col, row) with `0 ≤ col < 20` and `0 ≤ row < 20` (and the window dimensions are positive); a
mouse event that is not a left-button press, or whose computed cell fails the range check,
leaves `selectedCell`, and the other globals, unchanged. This holds however `float` values are
rounded. -/
theorem pixel_grid_selected_cell_invariant (fl : ℚ → ℚ) (es : List pixel_grid.Event)
    (hpos : ∀ e ∈ es, e.Positive) :
    (pixel_grid.CellValid (pixel_grid.run fl es).selectedCell ∧
        0 < (pixel_grid.run fl es).windowWidth ∧ 0 < (pixel_grid.run fl es).windowHeight) ∧
      ∀ button state x y : Int,
        (¬ (button = pixel_grid.GLUT_LEFT_BUTTON ∧ state = pixel_grid.GLUT_DOWN) ∨
          ¬ pixel_grid.InGrid (pixel_grid.mouseCol fl (pixel_grid.run fl es) x)
            (pixel_grid.mouseRow fl (pixel_grid.run fl es) y)) →
        pixel_grid.mouse fl (pixel_grid.run fl es) button state x y = pixel_grid.run fl es := by
  constructor
  · exact pixel_grid_foldl_invariant fl es hpos pixel_grid.initial
      ⟨Or.inl rfl, by decide, by decide⟩
  · intro button state x y h
    unfold pixel_grid.mouse
    rcases h with h | h
    · simp only [h, if_false]
    · unfold pixel_grid.InGrid at h
      simp only [h, if_false, ite_self]

theorem pixel_grid_selected_cell_invariant_witness :
    (∀ e ∈ [pixel_grid.Event.mouse 0 0 410 395, pixel_grid.Event.reshape 640 480,
        pixel_grid.Event.mouse 2 0 10 10, pixel_grid.Event.mouse 0 0 (-5) 900],
        e.Positive) ∧
      pixel_grid.CellValid (pixel_grid.run id [pixel_grid.Event.mouse 0 0 410 395,
        pixel_grid.Event.reshape 640 480, pixel_grid.Event.mouse 2 0 10 10,
        pixel_grid.Event.mouse 0 0 (-5) 900]).selectedCell :=
  ⟨by simp [pixel_grid.Event.Positive],
    (pixel_grid_selected_cell_invariant id [pixel_grid.Event.mouse 0 0 410 395,
      pixel_grid.Event.reshape 640 480, pixel_grid.Event.mouse 2 0 10 10,
      pixel_grid.Event.mouse 0 0 (-5) 900] (by simp [pixel_grid.Event.Positive])).1.1⟩

theorem isRounding_id : pixel_grid.IsRounding id := by
  constructor
  · intro n _; rfl
  · intro q _ _
    simp only [id, sub_self, abs_zero]
    positivity

/-- With the default window a cell is 40 wide, exactly. -/
theorem pixel_grid_cell_forty (fl : ℚ → ℚ) (hfl : pixel_grid.IsRounding fl) :
    fl (fl ((800 : Int) : ℚ) / fl ((20 : Int) : ℚ)) = 40 := by
  rw [hfl.1 800 (by norm_num), hfl.1 20 (by norm_num)]
  have h40 : (((800 : Int) : ℚ) / ((20 : Int) : ℚ)) = ((40 : Int) : ℚ) := by norm_num
  rw [h40, hfl.1 40 (by norm_num)]
  norm_num

/-- The rounded quotient of an integer between 0 and 800 by 40 truncates to the integer
quotient. -/
theorem pixel_grid_trunc_div_forty (fl : ℚ → ℚ) (hfl : pixel_grid.IsRounding fl) (a : Int)
    (h0 : 0 ≤ a) (h1 : a ≤ 800) :
    pixel_grid.truncToInt (fl (fl (a : ℚ) / 40)) = a / 40 := by
  have ha : fl (a : ℚ) = (a : ℚ) := hfl.1 a (by rw [abs_of_nonneg h0]; omega)
  rw [ha]
  have hsplit : a = 40 * (a / 40) + a % 40 := (Int.ediv_add_emod a 40).symm
  have hr0 : 0 ≤ a % 40 := Int.emod_nonneg a (by norm_num)
  have hr1 : a % 40 < 40 := Int.emod_lt_of_pos a (by norm_num)
  have hq0 : 0 ≤ a / 40 := Int.ediv_nonneg h0 (by norm_num)
  have hq1 : a / 40 ≤ 20 := by omega
  have hv : (a : ℚ) / 40 = ((a / 40 : Int) : ℚ) + ((a % 40 : Int) : ℚ) / 40 := by
    have : (a : ℚ) = 40 * ((a / 40 : Int) : ℚ) + ((a % 40 : Int) : ℚ) := by
      exact_mod_cast hsplit
    field_simp
    linarith
  by_cases hr : a % 40 = 0
  · have hint : (a : ℚ) / 40 = ((a / 40 : Int) : ℚ) := by rw [hv, hr]; simp
    rw [hint, hfl.1 (a / 40) (by rw [abs_of_nonneg hq0]; omega)]
    unfold pixel_grid.truncToInt
    rw [if_pos (by exact_mod_cast hq0), Int.floor_intCast]
  · have hr1' : (1 : ℚ) ≤ ((a % 40 : Int) : ℚ) := by
      have : 1 ≤ a % 40 := by omega
      exact_mod_cast this
    have hr39 : ((a % 40 : Int) : ℚ) ≤ 39 := by
      have : a % 40 ≤ 39 := by omega
      exact_mod_cast this
    have hq0' : (0 : ℚ) ≤ ((a / 40 : Int) : ℚ) := by exact_mod_cast hq0
    have hq1' : ((a / 40 : Int) : ℚ) ≤ 20 := by exact_mod_cast hq1
    have hvpos : (0 : ℚ) ≤ (a : ℚ) / 40 := by rw [hv]; positivity
    have hvlow : (1 : ℚ) / 64 ≤ |(a : ℚ) / 40| := by
      rw [abs_of_nonneg hvpos, hv]
      linarith
    have hvhigh : |(a : ℚ) / 40| ≤ 16777216 := by
      rw [abs_of_nonneg hvpos, hv]
      linarith
    have hb := hfl.2 ((a : ℚ) / 40) hvlow hvhigh
    rw [abs_of_nonneg hvpos] at hb
    have hb' := abs_le.1 hb
    have hlo : ((a / 40 : Int) : ℚ) ≤ fl ((a : ℚ) / 40) := by
      have := hb'.1
      rw [hv] at this ⊢
      linarith
    have hhi : fl ((a : ℚ) / 40) < ((a / 40 : Int) : ℚ) + 1 := by
      have := hb'.2
      rw [hv] at this ⊢
      linarith
    unfold pixel_grid.truncToInt
    rw [if_pos (le_trans hq0' hlo), Int.floor_eq_iff]
    exact ⟨hlo, hhi⟩

/-- C17: with the default 800 x 800 window a left-button press at integer window coordinates
`(x, y)` with `0 ≤ x < 800` and `1 ≤ y ≤ 800` sets `selectedCell` to
`(floor (x / 40), floor ((800 - y) / 40))`, whereas a press on the top pixel row `y = 0`
computes row 20, fails the range check and leaves `selectedCell` unchanged. -/
theorem pixel_grid_default_click (fl : ℚ → ℚ) (hfl : pixel_grid.IsRounding fl)
    (sel : Int × Int) (x y : Int) (hx0 : 0 ≤ x) (hx1 : x < 800) (hy0 : 1 ≤ y)
    (hy1 : y ≤ 800) :
    pixel_grid.mouse fl ⟨800, 800, sel⟩ pixel_grid.GLUT_LEFT_BUTTON pixel_grid.GLUT_DOWN x y =
        ⟨800, 800, (x / 40, (800 - y) / 40)⟩ ∧
      pixel_grid.mouseRow fl ⟨800, 800, sel⟩ 0 = 20 ∧
      pixel_grid.mouse fl ⟨800, 800, sel⟩ pixel_grid.GLUT_LEFT_BUTTON pixel_grid.GLUT_DOWN x 0 =
        ⟨800, 800, sel⟩ := by
  have hcol : pixel_grid.mouseCol fl ⟨800, 800, sel⟩ x = x / 40 := by
    unfold pixel_grid.mouseCol pixel_grid.cellWidth pixel_grid.NUM_COLS
    rw [pixel_grid_cell_forty fl hfl]
    exact pixel_grid_trunc_div_forty fl hfl x hx0 (by omega)
  have hrow : ∀ t : Int, 0 ≤ t → t ≤ 800 →
      pixel_grid.mouseRow fl ⟨800, 800, sel⟩ t = (800 - t) / 40 := by
    intro t ht0 ht1
    unfold pixel_grid.mouseRow pixel_grid.cellHeight pixel_grid.NUM_ROWS
    have hwrap : toInt32 (800 - t) = 800 - t :=
      toInt32_of_int _ (by unfold INT_MIN; omega) (by unfold INT_MAX; omega)
    simp only [hwrap]
    rw [pixel_grid_cell_forty fl hfl]
    exact pixel_grid_trunc_div_forty fl hfl (800 - t) (by omega) (by omega)
  refine ⟨?_, ?_, ?_⟩
  · unfold pixel_grid.mouse
    rw [hcol, hrow y (by omega) hy1]
    have hin : x / 40 ≥ 0 ∧ x / 40 < pixel_grid.NUM_COLS ∧ (800 - y) / 40 ≥ 0 ∧
        (800 - y) / 40 < pixel_grid.NUM_ROWS := by
      unfold pixel_grid.NUM_COLS pixel_grid.NUM_ROWS
      omega
    simp only [hin, and_self, if_true]
  · rw [hrow 0 (by omega) (by omega)]
    decide
  · unfold pixel_grid.mouse
    rw [hcol, hrow 0 (by omega) (by omega)]
    have hout : ¬ (x / 40 ≥ 0 ∧ x / 40 < pixel_grid.NUM_COLS ∧ (800 - 0 : Int) / 40 ≥ 0 ∧
        (800 - 0 : Int) / 40 < pixel_grid.NUM_ROWS) := by
      unfold pixel_grid.NUM_COLS pixel_grid.NUM_ROWS
      omega
    simp only [hout, if_false, ite_self]

theorem pixel_grid_default_click_witness :
    pixel_grid.IsRounding id ∧
      pixel_grid.mouse id ⟨800, 800, (-1, -1)⟩ pixel_grid.GLUT_LEFT_BUTTON pixel_grid.GLUT_DOWN
        410 395 = ⟨800, 800, (410 / 40, (800 - 395) / 40)⟩ ∧
      pixel_grid.mouseRow id ⟨800, 800, (-1, -1)⟩ 0 = 20 ∧
      pixel_grid.mouse id ⟨800, 800, (-1, -1)⟩ pixel_grid.GLUT_LEFT_BUTTON pixel_grid.GLUT_DOWN
        410 0 = ⟨800, 800, (-1, -1)⟩ :=
  ⟨isRounding_id,
    pixel_grid_default_click id isRounding_id (-1, -1) 410 395 (by decide) (by decide)
      (by decide) (by decide)⟩

/-! ## The sphere -/

theorem sphere_vertexRow_length {F : Type} (ops : sphere.FloatOps F)
    (xy z length_inv sector_step : F) (n : Nat) : ∀ j : Int,
    (sphere.vertexRow ops xy z length_inv sector_step n j).length = 6 * n := by
  induction n with
  | zero => intro j; rfl
  | succ n ih =>
    intro j
    simp only [sphere.vertexRow, List.length_append, List.length_cons, List.length_nil, ih]
    omega

theorem sphere_vertexGrid_length {F : Type} (ops : sphere.FloatOps F)
    (radius length_inv sector_step stack_step : F) (sectors : Int) (n : Nat) : ∀ i : Int,
    (sphere.vertexGrid ops radius length_inv sector_step stack_step sectors n i).length =
      6 * (n * (sectors + 1).toNat) := by
  induction n with
  | zero => intro i; simp [sphere.vertexGrid]
  | succ n ih =>
    intro i
    simp only [sphere.vertexGrid, List.length_append, sphere_vertexRow_length, ih]
    ring

/-- The intermediate array holds six floats for each of the `(stacks + 1) * (sectors + 1)`
vertices. -/
theorem sphere_vertices_length {F : Type} (ops : sphere.FloatOps F) (radius : F)
    (sectors nStacks : Int) :
    (sphere.vertices ops radius sectors nStacks).length =
      6 * ((nStacks + 1).toNat * (sectors + 1).toNat) := by
  unfold sphere.vertices
  exact sphere_vertexGrid_length ops _ _ _ _ sectors _ 0

theorem sphere_cornerOffsets_length (base : Int) : (sphere.cornerOffsets base).length = 6 := by
  simp only [sphere.cornerOffsets, List.length_map, List.length_range]

theorem sphere_cornerOffsets_mem (base : Int) (h0 : 0 ≤ base) (h1 : (base + 1) * 6 ≤ 2147483648) :
    ∀ o ∈ sphere.cornerOffsets base, base * 6 ≤ o ∧ o < (base + 1) * 6 := by
  intro o ho
  simp only [sphere.cornerOffsets, List.mem_map, List.mem_range] at ho
  obtain ⟨k, hk, rfl⟩ := ho
  have hk0 : (0 : Int) ≤ (k : Int) := Int.ofNat_nonneg k
  have hk6 : (k : Int) < 6 := by exact_mod_cast hk
  have e1 : toInt32 (base * 6) = base * 6 :=
    toInt32_of_int _ (by unfold INT_MIN; omega) (by unfold INT_MAX; omega)
  have e2 : toInt32 (base * 6 + (k : Int)) = base * 6 + (k : Int) :=
    toInt32_of_int _ (by unfold INT_MIN; omega) (by unfold INT_MAX; omega)
  rw [e1, e2]
  omega

theorem sphere_sectorOffsets_length (i nStacks : Int) (n : Nat) : ∀ k1 k2 : Int,
    (sphere.sectorOffsets i nStacks n k1 k2).length =
      n * (18 * ((if i ≠ 0 then 1 else 0) + (if i ≠ toInt32 (nStacks - 1) then 1 else 0))) := by
  induction n with
  | zero => intro k1 k2; simp [sphere.sectorOffsets]
  | succ n ih =>
    intro k1 k2
    rw [sphere.sectorOffsets, List.length_append, List.length_append, ih]
    split_ifs <;>
      simp only [List.length_append, sphere_cornerOffsets_length, List.length_nil] <;> omega

theorem sphere_sectorOffsets_mem (i nStacks : Int) (n : Nat) : ∀ k1 k2 : Int,
    0 ≤ k1 → k1 ≤ k2 → (k2 + n + 1) * 6 ≤ 2147483648 →
    ∀ o ∈ sphere.sectorOffsets i nStacks n k1 k2, 0 ≤ o ∧ o < (k2 + n + 1) * 6 := by
  induction n with
  | zero => intro k1 k2 _ _ _ o ho; simp [sphere.sectorOffsets] at ho
  | succ n ih =>
    intro k1 k2 h0 h12 hb o ho
    have hb' : (k2 + (n : Int) + 1 + 1) * 6 ≤ 2147483648 := by push_cast at hb; omega
    have e1 : toInt32 (k1 + 1) = k1 + 1 :=
      toInt32_of_int _ (by unfold INT_MIN; omega) (by unfold INT_MAX; omega)
    have e2 : toInt32 (k2 + 1) = k2 + 1 :=
      toInt32_of_int _ (by unfold INT_MIN; omega) (by unfold INT_MAX; omega)
    have c1 := sphere_cornerOffsets_mem k1 h0 (by omega)
    have c2 := sphere_cornerOffsets_mem k2 (by omega) (by omega)
    have c3 := sphere_cornerOffsets_mem (k1 + 1) (by omega) (by omega)
    have c4 := sphere_cornerOffsets_mem (k2 + 1) (by omega) (by omega)
    have hrec := ih (k1 + 1) (k2 + 1) (by omega) (by omega) (by omega)
    rw [sphere.sectorOffsets, e1, e2] at ho
    push_cast
    rcases List.mem_append.1 ho with ho | ho
    · rcases List.mem_append.1 ho with ho | ho
      · split at ho
        · rcases List.mem_append.1 ho with ho | ho
          · rcases List.mem_append.1 ho with ho | ho
            · have := c1 o ho; omega
            · have := c2 o ho; omega
          · have := c3 o ho; omega
        · simp at ho
      · split at ho
        · rcases List.mem_append.1 ho with ho | ho
          · rcases List.mem_append.1 ho with ho | ho
            · have := c3 o ho; omega
            · have := c2 o ho; omega
          · have := c4 o ho; omega
        · simp at ho
    · have := hrec o ho
      omega

theorem sphere_stackOffsets_mem (sectors nStacks i : Int) (hs : 0 ≤ sectors) (hi0 : 0 ≤ i)
    (hi1 : i < nStacks) (hfit : 6 * (nStacks + 1) * (sectors + 1) ≤ INT_MAX) :
    ∀ o ∈ sphere.stackOffsets sectors nStacks i,
      0 ≤ o ∧ o < 6 * ((nStacks + 1) * (sectors + 1)) := by
  have hm0 : 0 ≤ i * (sectors + 1) := mul_nonneg hi0 (by omega)
  have hm1 : i * (sectors + 1) + (sectors + 1) ≤ nStacks * (sectors + 1) := by
    have h := mul_le_mul_of_nonneg_right (show i + 1 ≤ nStacks by omega)
      (show 0 ≤ sectors + 1 by omega)
    have e : (i + 1) * (sectors + 1) = i * (sectors + 1) + (sectors + 1) := by ring
    rw [e] at h
    exact h
  have hfit' : 6 * (nStacks * (sectors + 1) + (sectors + 1)) ≤ 2147483647 := by
    have e : 6 * (nStacks + 1) * (sectors + 1) =
        6 * (nStacks * (sectors + 1) + (sectors + 1)) := by ring
    rw [e] at hfit
    exact hfit
  have hgoal : 6 * ((nStacks + 1) * (sectors + 1)) =
      6 * (nStacks * (sectors + 1) + (sectors + 1)) := by ring
  have e0 : toInt32 (sectors + 1) = sectors + 1 :=
    toInt32_of_int _ (by unfold INT_MIN; omega) (by unfold INT_MAX; omega)
  rw [hgoal]
  unfold sphere.stackOffsets
  rw [e0]
  generalize i * (sectors + 1) = m at hm0 hm1 ⊢
  generalize nStacks * (sectors + 1) = q at hm1 hfit' ⊢
  have e1 : toInt32 m = m :=
    toInt32_of_int _ (by unfold INT_MIN; omega) (by unfold INT_MAX; omega)
  have e2 : toInt32 (m + sectors) = m + sectors :=
    toInt32_of_int _ (by unfold INT_MIN; omega) (by unfold INT_MAX; omega)
  have e3 : toInt32 (m + sectors + 1) = m + sectors + 1 :=
    toInt32_of_int _ (by unfold INT_MIN; omega) (by unfold INT_MAX; omega)
  rw [e1, e2, e3]
  intro o ho
  have hn : ((sectors.toNat : Nat) : Int) = sectors := Int.toNat_of_nonneg hs
  have := sphere_sectorOffsets_mem i nStacks sectors.toNat m (m + sectors + 1) hm0 (by omega)
    (by rw [hn]; omega) o ho
  rw [hn] at this
  omega

theorem sphere_readOffsets_mem (sectors nStacks : Int) (o : Int)
    (ho : o ∈ sphere.readOffsets sectors nStacks) :
    ∃ i : Nat, (i : Int) < nStacks ∧ o ∈ sphere.stackOffsets sectors nStacks (i : Int) := by
  simp only [sphere.readOffsets, List.mem_flatten, List.mem_map, List.mem_range] at ho
  obtain ⟨l, ⟨i, hi, rfl⟩, hol⟩ := ho
  refine ⟨i, ?_, hol⟩
  omega

/-- Every offset the triangle-assembly loops read lies inside the intermediate array. -/
theorem sphere_reads_in_bounds {F : Type} (ops : sphere.FloatOps F) (radius : F)
    (sectors nStacks : Int) (hs : 0 ≤ sectors) (ht : 1 ≤ nStacks)
    (hfit : 6 * (nStacks + 1) * (sectors + 1) ≤ INT_MAX) :
    ∀ o ∈ sphere.readOffsets sectors nStacks,
      0 ≤ o ∧ o.toNat < (sphere.vertices ops radius sectors nStacks).length := by
  intro o ho
  obtain ⟨i, hi, hoi⟩ := sphere_readOffsets_mem sectors nStacks o ho
  have h := sphere_stackOffsets_mem sectors nStacks (i : Int) hs (Int.ofNat_nonneg i) hi hfit
    o hoi
  refine ⟨h.1, ?_⟩
  rw [sphere_vertices_length]
  have e1 : (((nStacks + 1).toNat : Nat) : Int) = nStacks + 1 :=
    Int.toNat_of_nonneg (by omega)
  have e2 : (((sectors + 1).toNat : Nat) : Int) = sectors + 1 :=
    Int.toNat_of_nonneg (by omega)
  have e3 : ((o.toNat : Nat) : Int) = o := Int.toNat_of_nonneg h.1
  have : ((o.toNat : Nat) : Int) <
      ((6 * ((nStacks + 1).toNat * (sectors + 1).toNat) : Nat) : Int) := by
    push_cast
    rw [e1, e2, e3]
    exact h.2
  exact_mod_cast this

theorem sphere_gather_some {F : Type} (vs : List F) (os : List Int)
    (h : ∀ o ∈ os, 0 ≤ o ∧ o.toNat < vs.length) :
    ∃ data : List F, sphere.gather vs os = some data ∧ data.length = os.length := by
  induction os with
  | nil => exact ⟨[], rfl, rfl⟩
  | cons o os ih =>
    obtain ⟨d, hd, hl⟩ := ih (fun x hx => h x (by simp [hx]))
    have ho := h o (by simp)
    obtain ⟨v, hv⟩ : ∃ v, vs[o.toNat]? = some v :=
      ⟨vs.get ⟨o.toNat, ho.2⟩, by rw [List.getElem?_eq_getElem ho.2]; rfl⟩
    refine ⟨v :: d, ?_, by simp [hl]⟩
    rw [sphere.gather, if_pos ho.1, hv, hd]
    rfl

theorem sphere_stackOffsets_length (sectors nStacks i : Int) :
    (sphere.stackOffsets sectors nStacks i).length =
      sectors.toNat *
        (18 * ((if i ≠ 0 then 1 else 0) + (if i ≠ toInt32 (nStacks - 1) then 1 else 0))) := by
  unfold sphere.stackOffsets
  exact sphere_sectorOffsets_length i nStacks sectors.toNat _ _

theorem sphere_readOffsets_length_aux (sectors nStacks : Int) (ht : 1 ≤ nStacks)
    (hmax : nStacks ≤ INT_MAX) (n : Nat) (hn : n ≤ nStacks.toNat) :
    ((List.range n).map fun (i : Nat) =>
        sphere.stackOffsets sectors nStacks (i : Int)).flatten.length =
      18 * sectors.toNat * ((n - 1) + (if n = nStacks.toNat then n - 1 else n)) := by
  have e : toInt32 (nStacks - 1) = nStacks - 1 :=
    toInt32_of_int _ (by unfold INT_MIN; omega) (by unfold INT_MAX at hmax ⊢; omega)
  induction n with
  | zero => simp
  | succ n ih =>
    have ihn := ih (by omega)
    rw [List.range_succ, List.map_append, List.flatten_append, List.length_append, ihn]
    simp only [List.map_cons, List.map_nil, List.flatten_cons, List.flatten_nil,
      List.append_nil, sphere_stackOffsets_length, e]
    have hS : ((nStacks.toNat : Nat) : Int) = nStacks := Int.toNat_of_nonneg (by omega)
    have hcount : ((if (n : Int) ≠ 0 then 1 else 0) +
        (if (n : Int) ≠ nStacks - 1 then 1 else 0) : Nat) +
        ((n - 1) + (if n = nStacks.toNat then n - 1 else n)) =
        (n + 1 - 1) + (if n + 1 = nStacks.toNat then n + 1 - 1 else n + 1) := by
      split_ifs <;> omega
    rw [← hcount]
    ring

theorem sphere_readOffsets_length (sectors nStacks : Int) (ht : 1 ≤ nStacks)
    (hmax : nStacks ≤ INT_MAX) :
    (sphere.readOffsets sectors nStacks).length =
      36 * sectors.toNat * (nStacks.toNat - 1) := by
  unfold sphere.readOffsets
  rw [sphere_readOffsets_length_aux sectors nStacks ht hmax nStacks.toNat (Nat.le_refl _)]
  simp only [if_true]
  ring

/-- The vector `generate_sphere` returns and its size. -/
theorem sphere_generate_length {F : Type} (ops : sphere.FloatOps F) (radius : F)
    (sectors nStacks : Int) (hs : 0 ≤ sectors) (ht : 1 ≤ nStacks)
    (hfit : 6 * (nStacks + 1) * (sectors + 1) ≤ INT_MAX) :
    ∃ data : List F, sphere.generate_sphere ops radius sectors nStacks = some data ∧
      data.length = 36 * sectors.toNat * (nStacks.toNat - 1) := by
  have hq : 0 ≤ nStacks * sectors := mul_nonneg (by omega) hs
  have hmax : nStacks ≤ INT_MAX := by
    have e : 6 * (nStacks + 1) * (sectors + 1) =
        6 * (nStacks * sectors) + 6 * nStacks + 6 * sectors + 6 := by ring
    rw [e] at hfit
    omega
  obtain ⟨data, hd, hl⟩ := sphere_gather_some (sphere.vertices ops radius sectors nStacks)
    (sphere.readOffsets sectors nStacks)
    (sphere_reads_in_bounds ops radius sectors nStacks hs ht hfit)
  exact ⟨data, hd, by rw [hl, sphere_readOffsets_length sectors nStacks ht hmax]⟩

theorem sphere_vertex_count_of_length {F : Type} (data : List F) (a b : Nat)
    (hl : data.length = 36 * a * b) (hfit : (6 * a * b : Int) ≤ INT_MAX) :
    sphere.sphere_vertex_count data = 6 * a * b := by
  have hdiv : data.length / 6 = 6 * a * b := by
    rw [hl]
    have : 36 * a * b = 6 * (6 * a * b) := by ring
    rw [this, Nat.mul_div_cancel_left _ (by decide)]
  unfold sphere.sphere_vertex_count
  rw [hdiv]
  push_cast
  have h0 : (0 : Int) ≤ 6 * a * b := by positivity
  exact toInt32_of_int _ (by unfold INT_MIN; omega) hfit

/-- C14: for `sectors ≥ 0` and `stacks ≥ 1` (sizes for which the index arithmetic fits `int`)
`generate_sphere` returns exactly `36 * sectors * (stacks - 1)` floats, that is
`2 * sectors * (stacks - 1)` triangles of three 6-float vertices: with at least two stacks, one
triangle per sector in the top and in the bottom stack and two in every other stack. So
`sphere_vertex_count = size / 6` of `initSphere` is exact, equal to
`6 * sectors * (stacks - 1)` and divisible by 3; it is 14700 for the 50 x 50 sphere. -/
theorem generate_sphere_size {F : Type} (ops : sphere.FloatOps F) (radius : F)
    (sectors nStacks : Int) (hs : 0 ≤ sectors) (ht : 1 ≤ nStacks)
    (hfit : 6 * (nStacks + 1) * (sectors + 1) ≤ INT_MAX) :
    (∃ data : List F, sphere.generate_sphere ops radius sectors nStacks = some data ∧
        (data.length : Int) = 36 * sectors * (nStacks - 1) ∧
        data.length = 18 * (2 * sectors.toNat * (nStacks.toNat - 1)) ∧
        sphere.sphere_vertex_count data * 6 = (data.length : Int) ∧
        sphere.sphere_vertex_count data = 6 * sectors * (nStacks - 1) ∧
        (3 : Int) ∣ sphere.sphere_vertex_count data) ∧
      (2 ≤ nStacks → ∀ i : Int, 0 ≤ i → i < nStacks →
        (sphere.stackOffsets sectors nStacks i).length =
          18 * (sectors.toNat * (if i = 0 ∨ i = nStacks - 1 then 1 else 2))) ∧
      (∃ data : List F, sphere.generate_sphere ops radius 50 50 = some data ∧
        sphere.sphere_vertex_count data = 14700) := by
  have hq : 0 ≤ nStacks * sectors := mul_nonneg (by omega) hs
  have hfit' : 6 * (nStacks * sectors) + 6 * nStacks + 6 * sectors + 6 ≤ 2147483647 := by
    have e : 6 * (nStacks + 1) * (sectors + 1) =
        6 * (nStacks * sectors) + 6 * nStacks + 6 * sectors + 6 := by ring
    rw [e] at hfit
    exact hfit
  have hS : ((nStacks.toNat : Nat) : Int) = nStacks := Int.toNat_of_nonneg (by omega)
  have hA : ((sectors.toNat : Nat) : Int) = sectors := Int.toNat_of_nonneg hs
  have hS1 : (((nStacks.toNat - 1 : Nat)) : Int) = nStacks - 1 := by
    rw [Nat.cast_sub (by omega), hS]; rfl
  refine ⟨?_, ?_, ?_⟩
  · obtain ⟨data, hd, hl⟩ := sphere_generate_length ops radius sectors nStacks hs ht hfit
    have hcnt := sphere_vertex_count_of_length data sectors.toNat (nStacks.toNat - 1) hl (by
      rw [hA, hS1]
      have e : 6 * sectors * (nStacks - 1) = 6 * (nStacks * sectors) - 6 * sectors := by ring
      rw [e]; unfold INT_MAX; omega)
    rw [hA, hS1] at hcnt
    have hlen : (data.length : Int) = 36 * sectors * (nStacks - 1) := by
      rw [hl]; push_cast; rw [hA, hS1]
    refine ⟨data, hd, hlen, by rw [hl]; ring, ?_, hcnt, ?_⟩
    · rw [hcnt, hlen]; ring
    · rw [hcnt]
      exact ⟨2 * sectors * (nStacks - 1), by ring⟩
  · intro h2 i hi0 hi1
    have e : toInt32 (nStacks - 1) = nStacks - 1 :=
      toInt32_of_int _ (by unfold INT_MIN; omega) (by unfold INT_MAX; omega)
    rw [sphere_stackOffsets_length, e]
    split_ifs <;> omega
  · obtain ⟨data, hd, hl⟩ := sphere_generate_length ops radius 50 50 (by decide) (by decide)
      (by decide)
    refine ⟨data, hd, ?_⟩
    have := sphere_vertex_count_of_length data 50 49 (by rw [hl]; rfl) (by decide)
    rw [this]; norm_num

theorem generate_sphere_size_witness :
    ∃ data : List Int, sphere.generate_sphere sphere.sampleOps 1 3 2 = some data ∧
      (data.length : Int) = 36 * 3 * (2 - 1) ∧ sphere.sphere_vertex_count data = 6 * 3 * (2 - 1) :=
  (generate_sphere_size sphere.sampleOps 1 3 2 (by decide) (by decide) (by decide)).1.imp
    fun _ h => ⟨h.1, h.2.1, h.2.2.2.2.1⟩

/-- C15: for `sectors ≥ 1` and `stacks ≥ 1` (sizes for which the index arithmetic fits `int`)
the intermediate vertex array holds `6 * (stacks + 1) * (sectors + 1)` floats and every offset
`k1*6+k`, `k2*6+k`, `(k1+1)*6+k`, `(k2+1)*6+k` the triangle-assembly loops read is inside
it. -/
theorem sphere_reads_within_vertices {F : Type} (ops : sphere.FloatOps F) (radius : F)
    (sectors nStacks : Int) (hs : 1 ≤ sectors) (ht : 1 ≤ nStacks)
    (hfit : 6 * (nStacks + 1) * (sectors + 1) ≤ INT_MAX) :
    ((sphere.vertices ops radius sectors nStacks).length : Int) =
        6 * (nStacks + 1) * (sectors + 1) ∧
      ∀ o ∈ sphere.readOffsets sectors nStacks,
        0 ≤ o ∧ o < ((sphere.vertices ops radius sectors nStacks).length : Int) ∧
          o.toNat < (sphere.vertices ops radius sectors nStacks).length := by
  have hlen : ((sphere.vertices ops radius sectors nStacks).length : Int) =
      6 * (nStacks + 1) * (sectors + 1) := by
    rw [sphere_vertices_length]
    push_cast
    rw [Int.toNat_of_nonneg (show 0 ≤ nStacks + 1 by omega),
      Int.toNat_of_nonneg (show 0 ≤ sectors + 1 by omega)]
    ring
  refine ⟨hlen, ?_⟩
  intro o ho
  have h := sphere_reads_in_bounds ops radius sectors nStacks (by omega) ht hfit o ho
  refine ⟨h.1, ?_, h.2⟩
  have : ((o.toNat : Nat) : Int) < ((sphere.vertices ops radius sectors nStacks).length : Int) := by
    exact_mod_cast h.2
  rw [Int.toNat_of_nonneg h.1] at this
  exact this

theorem sphere_reads_within_vertices_witness :
    ((sphere.vertices sphere.sampleOps 1 2 2).length : Int) = 6 * (2 + 1) * (2 + 1) ∧
      ∀ o ∈ sphere.readOffsets 2 2,
        0 ≤ o ∧ o < ((sphere.vertices sphere.sampleOps 1 2 2).length : Int) ∧
          o.toNat < (sphere.vertices sphere.sampleOps 1 2 2).length :=
  sphere_reads_within_vertices sphere.sampleOps 1 2 2 (by decide) (by decide) (by decide)

end ObjViewer
